import Mathlib

/-!
Verification of the evolutionary-search engine of the `bio-algs` repository:
a shallow embedding of `src/elitism.py` (`eaSimpleWithElitism`) and
`src/ga_solver.py` (`GASolver.ga_solve`), together with theorems settling the
specification claims about population-size invariance, stagnation handling,
shock events, elitism monotonicity, hall-of-fame bounds, early stopping and
the error behaviour for a missing hall of fame.

Conventions of the embedding:
* Fitness is a natural number (the violation count); lower is better, `0` is
  optimal.  An individual's `fitness` field is `none` while "invalid"
  (not yet evaluated), mirroring DEAP's `ind.fitness.valid`.
* Randomized collaborators (selection, variation, population creation) are
  modelled as functions threading an abstract random-state `σ`, mirroring
  Python's global `random` stream.  `evaluate` is a pure function of the
  genes, as `get_violations_count` is.
* The generational `for` loop with its `break` is modelled as the iteration
  of a step function `genStep` on a state carrying a `done` flag; a `done`
  state is a fixed point.
-/

namespace BioAlgs

/-- An individual: list of genes plus lazily computed fitness
(`none` = invalid, i.e. not yet evaluated). -/
structure Ind where
  genes : List Nat
  fitness : Option Nat
deriving DecidableEq, Repr

/-- The numeric fitness of an individual (meaningful once evaluated). -/
def fitVal (i : Ind) : Nat := i.fitness.getD 0

/-- Python's `min` over a nonempty list (the `min(logbook.select('min'))`
computation); `0` as a junk value on the empty list, which never arises. -/
def natMin : List Nat → Nat
  | [] => 0
  | h :: t => t.foldl Nat.min h

/-- `np.min` of the fitness values over a population. -/
def popMin (l : List Ind) : Nat := natMin (l.map fitVal)

/-- `np.mean` of the fitness values over a population (exact rational). -/
def popAvg (l : List Ind) : ℚ := ((l.map fitVal).sum : ℚ) / (l.length : ℚ)

/-- The evaluation pass over a list of individuals:
`invalid_ind = [ind for ind in pop if not ind.fitness.valid]` followed by
assigning `ind.fitness.values = evaluate(ind)`.  Returns the updated list
together with `len(invalid_ind)` (the `nevals` statistic). -/
def evalInvalid (ev : List Nat → Nat) (l : List Ind) : List Ind × Nat :=
  (l.map fun i => if i.fitness.isSome then i else ⟨i.genes, some (ev i.genes)⟩,
   (l.filter fun i => i.fitness.isNone).length)

/-- Modelled from the spec: DEAP's `tools.HallOfFame` (an external library
collaborator, not part of this repository's sources).  Per the spec, a
"bounded ordered sequence of up to `K` individuals, sorted best-first by
fitness", with a domain-supplied duplicate predicate.  `items` is kept
sorted by ascending fitness value (best, i.e. lowest, first). -/
structure HallOfFame where
  maxsize : Nat
  items : List Ind
deriving DecidableEq, Repr

/-- Best-first order on individuals: lower fitness value first. -/
def fitLe (a b : Ind) : Prop := fitVal a ≤ fitVal b

instance : DecidableRel fitLe := fun a b => Nat.decLe (fitVal a) (fitVal b)

instance : IsTotal Ind fitLe := ⟨fun a b => Nat.le_total (fitVal a) (fitVal b)⟩

instance : IsTrans Ind fitLe := ⟨fun _ _ _ h1 h2 => Nat.le_trans h1 h2⟩

/-- Insertion keeping the archive sorted best-first. -/
def hofInsert (ind : Ind) (items : List Ind) : List Ind :=
  List.orderedInsert fitLe ind items

/-- Modelled from the spec: one step of `HallOfFame.update` for a single
candidate.  "`update(candidates)` inserts any candidate whose fitness is
better than the current worst archived member (or archive not yet full),
maintaining best-first order, and removing duplicates per the equality
predicate"; the worst member is evicted when the archive is over capacity. -/
def hofUpdateOne (similar : Ind → Ind → Bool) (hof : HallOfFame) (ind : Ind) :
    HallOfFame :=
  match hof.items with
  | [] => if hof.maxsize = 0 then hof else ⟨hof.maxsize, [ind]⟩
  | h :: t =>
    if fitVal ind < fitVal (t.getLastD h) ∨ (h :: t).length < hof.maxsize then
      if (h :: t).any fun x => similar ind x then hof
      else if hof.maxsize ≤ (h :: t).length then
        ⟨hof.maxsize, hofInsert ind (h :: t).dropLast⟩
      else ⟨hof.maxsize, hofInsert ind (h :: t)⟩
    else hof

/-- Modelled from the spec: `HallOfFame.update` over a list of candidates. -/
def hofUpdate (similar : Ind → Ind → Bool) (hof : HallOfFame)
    (pop : List Ind) : HallOfFame :=
  pop.foldl (hofUpdateOne similar) hof

/-- Fitness of the best (first) archived member; `0` junk on an empty list. -/
def listBest (items : List Ind) : Nat :=
  match items with
  | [] => 0
  | h :: _ => fitVal h

/-- Fitness of `hof.items[0]`, the best member of the archive. -/
def bestFit (hof : HallOfFame) : Nat := listBest hof.items

/-- One row of the `tools.Logbook`: generation index, number of evaluations,
the registered statistics (`min`, `avg`), and — for generations ≥ 1 — the
`radiation` counter and `shock_event` label recorded by the engine
(`none` on the generation-0 row, which does not carry those keys). -/
structure StatRecord where
  gen : Nat
  nevals : Nat
  minFit : Nat
  avgFit : ℚ
  radiation : Option Nat
  shockEvent : Option String

/-- The duck-typed toolbox collaborators used by the engine, threading the
random state `σ`: `toolbox.select`, the `varAnd` crossover+mutation pass
(parameterized by the current `cxpb` and `mutpb`), `toolbox.evaluate`, and
`toolbox.populationCreator`. -/
structure Toolbox (σ : Type) where
  select : List Ind → Nat → σ → List Ind × σ
  vary : ℚ → ℚ → List Ind → σ → List Ind × σ
  evaluate : List Nat → Nat
  populationCreator : Nat → σ → List Ind × σ

/-- The configuration of one `eaSimpleWithElitism` run: toolbox, the
hall-of-fame `similar` predicate, `cxpb`, the configured (saved) `mutpb`,
`ngen`, and the stagnation pair `stuck = (stuckGen, stuckKind)`. -/
structure EngineCfg (σ : Type) where
  tb : Toolbox σ
  similar : Ind → Ind → Bool
  cxpb : ℚ
  mutpb : ℚ
  ngen : Nat
  stuckGen : Nat
  stuckKind : String

/-- The loop state of `eaSimpleWithElitism`.  `offspring` is the Python
local of the same name, whose value is carried from one iteration to the
next (it is read before being re-assigned when a shock fires with a kind
other than `'Comet Strike'`); after every iteration it equals the
population.  `lastMin = none` models the `last_min = False` sentinel.
`hofSize` is the `hof_size` computed once after the initial update. -/
structure EngineState (σ : Type) where
  population : List Ind
  offspring : List Ind
  hof : HallOfFame
  hofSize : Nat
  logbook : List StatRecord
  mutpb : ℚ
  radiation : Nat
  stuckCount : Nat
  lastMin : Option Nat
  gen : Nat
  done : Bool
  rng : σ

/-- `radiation = max(radiation - 1, 0)` at the top of each generation
(truncated subtraction on `Nat` is exactly this). -/
def radAfterDecay (s : EngineState σ) : Nat := s.radiation - 1

/-- `if radiation == 0: mutpb = save_mutpb` after the decay. -/
def mutAfterDecay (cfg : EngineCfg σ) (s : EngineState σ) : ℚ :=
  if radAfterDecay s = 0 then cfg.mutpb else s.mutpb

/-- `else: stuck_count = 0` — an active radiation countdown suppresses
stagnation counting. -/
def stuckAfterDecay (s : EngineState σ) : Nat :=
  if radAfterDecay s = 0 then s.stuckCount else 0

/-- The stagnation trigger `stuck[0] < stuck_count`, tested after the
radiation decay. -/
def triggerFires (cfg : EngineCfg σ) (s : EngineState σ) : Bool :=
  decide (cfg.stuckGen < stuckAfterDecay s)

/-- `stuck_count` after the selection/shock branch: the shock branch ends
with `stuck_count = 0`, the selection branch leaves it unchanged. -/
def stuckAfterBranch (cfg : EngineCfg σ) (s : EngineState σ) : Nat :=
  if triggerFires cfg s then 0 else stuckAfterDecay s

/-- The outcome of the shock/selection branch of one generation: the pool
of individuals to vary, the (possibly cleared) hall of fame, the active
`mutpb`, the `radiation` counter, the `shock_event` label and the random
state. -/
structure SelOut (σ : Type) where
  pool : List Ind
  hof : HallOfFame
  mutpb : ℚ
  radiation : Nat
  shock : String
  rng : σ

/-- The shock/selection branch of one generation of `eaSimpleWithElitism`:
if the trigger fires, a `'Comet Strike'` kind rebuilds the pool as
`populationCreator(len(population) - 3)` extended with `halloffame.items[:3]`
and clears the archive, a `'Radiation Leak'` kind sets `mutpb = 0.5` and
`radiation = stuck[0]`; any other kind does nothing, leaving the stale
`offspring` local as the pool.  Without a trigger the pool is
`toolbox.select(population, len(population) - hof_size)`. -/
def selectionPhase (cfg : EngineCfg σ) (s : EngineState σ) : SelOut σ :=
  let mut1 := mutAfterDecay cfg s
  let rad1 := radAfterDecay s
  if triggerFires cfg s then
    let ph :=
      if cfg.stuckKind = "Comet Strike" then
        let fr := cfg.tb.populationCreator (s.population.length - 3) s.rng
        (fr.1 ++ s.hof.items.take 3, { s.hof with items := ([] : List Ind) },
         fr.2, "Comet Strike")
      else (s.offspring, s.hof, s.rng, "")
    if cfg.stuckKind = "Radiation Leak" then
      { pool := ph.1, hof := ph.2.1, mutpb := (1 : ℚ) / 2,
        radiation := cfg.stuckGen, shock := "Radiation Leak", rng := ph.2.2.1 }
    else
      { pool := ph.1, hof := ph.2.1, mutpb := mut1, radiation := rad1,
        shock := ph.2.2.2, rng := ph.2.2.1 }
  else
    let sel := cfg.tb.select s.population (s.population.length - s.hofSize) s.rng
    { pool := sel.1, hof := s.hof, mutpb := mut1, radiation := rad1,
      shock := "", rng := sel.2 }

/-- The pool after `varAnd(offspring, toolbox, cxpb, mutpb)`. -/
def variedPool (cfg : EngineCfg σ) (so : SelOut σ) : List Ind × σ :=
  cfg.tb.vary cfg.cxpb so.mutpb so.pool so.rng

/-- The new population: the varied and re-evaluated pool, extended with the
untouched hall-of-fame members (`offspring.extend(halloffame.items)`), which
then replaces the population (`population[:] = offspring`). -/
def newPop (cfg : EngineCfg σ) (so : SelOut σ) : List Ind :=
  (evalInvalid cfg.tb.evaluate (variedPool cfg so).1).1 ++ so.hof.items

/-- The logbook row appended for generation `g`. -/
def newRec (cfg : EngineCfg σ) (g : Nat) (so : SelOut σ) : StatRecord :=
  { gen := g, nevals := (evalInvalid cfg.tb.evaluate (variedPool cfg so).1).2,
    minFit := popMin (newPop cfg so), avgFit := popAvg (newPop cfg so),
    radiation := some so.radiation, shockEvent := some so.shock }

/-- The tail of one generation after the shock/selection branch: variation,
evaluation, elitist re-injection, hall-of-fame update, population
replacement, statistics recording, the stagnation bookkeeping on the
running minimum of the whole `'min'` column, and the early-stop test
`last_min == 0`. -/
def genTail (cfg : EngineCfg σ) (s : EngineState σ) (so : SelOut σ) :
    EngineState σ :=
  let pop2 := newPop cfg so
  let log2 := s.logbook ++ [newRec cfg (s.gen + 1) so]
  let nm := natMin (log2.map fun r => r.minFit)
  { population := pop2, offspring := pop2,
    hof := hofUpdate cfg.similar so.hof pop2,
    hofSize := s.hofSize, logbook := log2, mutpb := so.mutpb,
    radiation := so.radiation,
    stuckCount :=
      match s.lastMin with
      | none => stuckAfterBranch cfg s
      | some m =>
        if m = 0 then stuckAfterBranch cfg s
        else if nm = m then stuckAfterBranch cfg s + 1 else 0,
    lastMin := some nm, gen := s.gen + 1, done := decide (nm = 0),
    rng := (variedPool cfg so).2 }

/-- One iteration of the generational `for` loop; once the `break` has
fired (`done`), the state is frozen. -/
def genStep (cfg : EngineCfg σ) (s : EngineState σ) : EngineState σ :=
  if s.done then s else genTail cfg s (selectionPhase cfg s)

/-- The part of `eaSimpleWithElitism` before the loop, for a present hall
of fame: evaluate the invalid individuals, `halloffame.update(population)`,
`hof_size = len(halloffame.items)`, and record the generation-0 row. -/
def eaStart (cfg : EngineCfg σ) (pop0 : List Ind) (hof0 : HallOfFame)
    (rng : σ) : EngineState σ :=
  let ev := evalInvalid cfg.tb.evaluate pop0
  let hof1 := hofUpdate cfg.similar hof0 ev.1
  { population := ev.1, offspring := [], hof := hof1,
    hofSize := hof1.items.length,
    logbook := [{ gen := 0, nevals := ev.2, minFit := popMin ev.1,
                  avgFit := popAvg ev.1, radiation := none,
                  shockEvent := none }],
    mutpb := cfg.mutpb, radiation := 0, stuckCount := 0, lastMin := none,
    gen := 0, done := false, rng := rng }

/-- The state after `g` iterations of the generational loop. -/
def eaRun (cfg : EngineCfg σ) (pop0 : List Ind) (hof0 : HallOfFame)
    (rng : σ) (g : Nat) : EngineState σ :=
  (genStep cfg)^[g] (eaStart cfg pop0 hof0 rng)

/-- `eaSimpleWithElitism`.  A missing (`None`) hall of fame raises
`ValueError("halloffame parameter must not be empty!")` — but only after
the initial evaluation pass has already run; the error payload records how
many evaluations were performed before the raise (`len(invalid_ind)`),
since evaluation is an observable call to the external evaluation port. -/
def eaSimpleWithElitism (cfg : EngineCfg σ) (pop0 : List Ind)
    (hofArg : Option HallOfFame) (rng : σ) :
    Except (Nat × String) (EngineState σ) :=
  match hofArg with
  | none =>
    .error ((evalInvalid cfg.tb.evaluate pop0).2,
            "halloffame parameter must not be empty!")
  | some hof0 => .ok (eaRun cfg pop0 hof0 rng cfg.ngen)

/-- The observable outcome of `GASolver.ga_solve`: the `solved` flag, the
decoded solution, the final-callback invocations (argument lists), and the
returned population/logbook/hall of fame. -/
structure GAOutcome (Sol : Type) where
  solved : Bool
  solution : Sol
  finalCalls : List (Bool × Option Sol)
  population : List Ind
  logbook : List StatRecord
  hof : HallOfFame

/-- `GASolver.ga_solve`: create the initial population, run
`eaSimpleWithElitism` with a fresh hall of fame of the configured size and
the hardcoded `stuck=(50, 'chernobyl')`, then decode `hof.items[0]`
(`decode` stands for the domain's `get_solution`, whose module is not in
the sources) and set `solved` iff its fitness is `0`, invoking the optional
final callback once.  `none` models the `IndexError` that Python would
raise on `hof.items[0]` if the archive ended empty, and an engine
exception. -/
def gaSolve (tb : Toolbox σ) (similar : Ind → Ind → Bool)
    (decode : Ind → Sol) (hasFinalCb : Bool) (popSize ngen hofK : Nat)
    (cxpb mutpb : ℚ) (rng : σ) : Option (GAOutcome Sol) :=
  let cfg : EngineCfg σ :=
    { tb := tb, similar := similar, cxpb := cxpb, mutpb := mutpb,
      ngen := ngen, stuckGen := 50, stuckKind := "chernobyl" }
  let p0 := tb.populationCreator popSize rng
  match eaSimpleWithElitism cfg p0.1 (some { maxsize := hofK, items := [] })
      p0.2 with
  | .error _ => none
  | .ok s =>
    match s.hof.items with
    | [] => none
    | best :: _ =>
      let solved := decide (fitVal best = 0)
      some { solved := solved, solution := decode best,
             finalCalls :=
               if hasFinalCb then
                 [(solved, if solved then some (decode best) else none)]
               else [],
             population := s.population, logbook := s.logbook, hof := s.hof }

/-! ### Lemmas on the running minimum -/

theorem foldl_min_le_init (t : List Nat) (a : Nat) : t.foldl Nat.min a ≤ a := by
  induction t generalizing a with
  | nil => exact Nat.le_refl a
  | cons h t ih => exact Nat.le_trans (ih (Nat.min a h)) (Nat.min_le_left a h)

theorem foldl_min_le_of_mem {t : List Nat} {x : Nat} (a : Nat) (hx : x ∈ t) :
    t.foldl Nat.min a ≤ x := by
  induction t generalizing a with
  | nil => cases hx
  | cons h t ih =>
    rcases List.mem_cons.mp hx with rfl | hx
    · exact Nat.le_trans (foldl_min_le_init t (Nat.min a x))
        (Nat.min_le_right a x)
    · exact ih (Nat.min a h) hx

theorem foldl_min_mem (t : List Nat) (a : Nat) :
    t.foldl Nat.min a = a ∨ t.foldl Nat.min a ∈ t := by
  induction t generalizing a with
  | nil => exact Or.inl rfl
  | cons h t ih =>
    rcases ih (Nat.min a h) with he | hm
    · rw [List.foldl_cons, he]
      have hmm : Nat.min a h = a ∨ Nat.min a h = h := by
        rcases Nat.le_total a h with hle | hle
        · exact Or.inl (Nat.min_eq_left hle)
        · exact Or.inr (Nat.min_eq_right hle)
      rcases hmm with hmm | hmm
      · exact Or.inl hmm
      · rw [hmm]
        exact Or.inr (List.mem_cons_self h t)
    · exact Or.inr (List.mem_cons_of_mem h hm)

theorem natMin_le_of_mem {l : List Nat} {x : Nat} (hx : x ∈ l) :
    natMin l ≤ x := by
  cases l with
  | nil => cases hx
  | cons h t =>
    rcases List.mem_cons.mp hx with rfl | hx
    · exact foldl_min_le_init t x
    · exact foldl_min_le_of_mem h hx

theorem natMin_mem {l : List Nat} (h : l ≠ []) : natMin l ∈ l := by
  cases l with
  | nil => exact absurd rfl h
  | cons a t =>
    rcases foldl_min_mem t a with he | hm
    · rw [natMin, he]; exact List.mem_cons_self a t
    · exact List.mem_cons_of_mem a hm

theorem natMin_eq_zero_iff {l : List Nat} (h : l ≠ []) :
    natMin l = 0 ↔ ∃ x ∈ l, x = 0 := by
  constructor
  · intro h0
    exact ⟨natMin l, natMin_mem h, h0⟩
  · rintro ⟨x, hx, rfl⟩
    exact Nat.le_zero.mp (natMin_le_of_mem hx)

theorem natMin_append_singleton {l : List Nat} (x : Nat) (h : l ≠ []) :
    natMin (l ++ [x]) = Nat.min (natMin l) x := by
  cases l with
  | nil => exact absurd rfl h
  | cons a t => simp [natMin, List.foldl_append]

theorem popMin_le_of_mem {l : List Ind} {i : Ind} (hi : i ∈ l) :
    popMin l ≤ fitVal i :=
  natMin_le_of_mem (List.mem_map_of_mem fitVal hi)

theorem popMin_mem {l : List Ind} (h : l ≠ []) :
    ∃ i ∈ l, fitVal i = popMin l := by
  have hmem : natMin (l.map fitVal) ∈ l.map fitVal :=
    natMin_mem (by simpa using h)
  rcases List.mem_map.mp hmem with ⟨i, hi, he⟩
  exact ⟨i, hi, he⟩

/-! ### Lemmas on the evaluation pass -/

/-- The stored fitness of an individual, when valid, is the value of the
evaluation function on its genes. -/
def FitOK (ev : List Nat → Nat) (i : Ind) : Prop :=
  ∀ f, i.fitness = some f → f = ev i.genes

theorem evalInvalid_length (ev : List Nat → Nat) (l : List Ind) :
    ((evalInvalid ev l).1).length = l.length := by
  simp [evalInvalid]

theorem evalInvalid_ne {ev : List Nat → Nat} {l : List Ind} (h : l ≠ []) :
    (evalInvalid ev l).1 ≠ [] := by
  simp [evalInvalid, h]

theorem evalInvalid_valid {ev : List Nat → Nat} {l : List Ind} :
    ∀ i ∈ (evalInvalid ev l).1, i.fitness.isSome = true := by
  intro i hi
  rcases List.mem_map.mp hi with ⟨j, _, rfl⟩
  by_cases hj : j.fitness.isSome <;> simp [hj]

theorem evalInvalid_fitOK {ev : List Nat → Nat} {l : List Ind}
    (hl : ∀ j ∈ l, FitOK ev j) :
    ∀ i ∈ (evalInvalid ev l).1, FitOK ev i := by
  intro i hi
  rcases List.mem_map.mp hi with ⟨j, hj, rfl⟩
  by_cases hv : j.fitness.isSome
  · simpa [hv] using hl j hj
  · simp only [hv, if_neg, Bool.false_eq_true, if_false]
    intro f hf
    simpa using hf.symm

/-! ### Lemmas on the hall of fame -/

theorem listBest_le_of_mem {items : List Ind} {i : Ind}
    (hs : List.Sorted fitLe items) (hi : i ∈ items) :
    listBest items ≤ fitVal i := by
  cases items with
  | nil => cases hi
  | cons h t =>
    rcases List.mem_cons.mp hi with rfl | hi
    · exact Nat.le_refl _
    · exact List.rel_of_sorted_cons hs i hi

theorem hofInsert_sorted {items : List Ind} (ind : Ind)
    (hs : List.Sorted fitLe items) :
    List.Sorted fitLe (hofInsert ind items) :=
  hs.orderedInsert ind items

theorem hofInsert_length (ind : Ind) (items : List Ind) :
    (hofInsert ind items).length = items.length + 1 :=
  List.orderedInsert_length fitLe items ind

theorem hofInsert_ne (ind : Ind) (items : List Ind) :
    hofInsert ind items ≠ [] := by
  intro h
  have := hofInsert_length ind items
  rw [h] at this
  simp at this

theorem mem_hofInsert {items : List Ind} {i ind : Ind}
    (hi : i ∈ hofInsert ind items) : i = ind ∨ i ∈ items :=
  (List.mem_orderedInsert fitLe).mp hi

theorem listBest_hofInsert_le_self (ind : Ind) (items : List Ind) :
    listBest (hofInsert ind items) ≤ fitVal ind := by
  cases items with
  | nil => exact Nat.le_refl _
  | cons h t =>
    by_cases hle : fitLe ind h
    · simp [hofInsert, List.orderedInsert, hle, listBest]
    · have : fitVal h ≤ fitVal ind := Nat.le_of_not_le hle
      simpa [hofInsert, List.orderedInsert, hle, listBest] using this

theorem listBest_hofInsert_le {items : List Ind} (ind : Ind)
    (hne : items ≠ []) : listBest (hofInsert ind items) ≤ listBest items := by
  cases items with
  | nil => exact absurd rfl hne
  | cons a t =>
    by_cases hle : fitLe ind a
    · simp only [hofInsert, List.orderedInsert, if_pos hle, listBest]
      exact hle
    · simp [hofInsert, List.orderedInsert, hle, listBest]

theorem hofUpdateOne_maxsize (similar : Ind → Ind → Bool) (hof : HallOfFame)
    (ind : Ind) : (hofUpdateOne similar hof ind).maxsize = hof.maxsize := by
  obtain ⟨K, items⟩ := hof
  cases items with
  | nil => simp only [hofUpdateOne]; split <;> rfl
  | cons a t => simp only [hofUpdateOne]; split_ifs <;> rfl

theorem hofUpdateOne_length {similar : Ind → Ind → Bool} {hof : HallOfFame}
    (ind : Ind) (h : hof.items.length ≤ hof.maxsize) :
    (hofUpdateOne similar hof ind).items.length ≤ hof.maxsize := by
  obtain ⟨K, items⟩ := hof
  cases items with
  | nil =>
    simp only [hofUpdateOne]
    split_ifs with h0
    · simp
    · simp only [List.length_singleton]
      omega
  | cons a t =>
    simp only [hofUpdateOne]
    split_ifs with h1 h2 h3
    · exact h
    · simp only [hofInsert_length, List.length_dropLast]
      simp only [List.length_cons] at h ⊢
      omega
    · simp only [hofInsert_length]
      simp only [List.length_cons] at h3 ⊢
      omega
    · exact h

theorem hofUpdateOne_mem {similar : Ind → Ind → Bool} {hof : HallOfFame}
    {ind : Ind} :
    ∀ j ∈ (hofUpdateOne similar hof ind).items, j = ind ∨ j ∈ hof.items := by
  obtain ⟨K, items⟩ := hof
  cases items with
  | nil =>
    intro j hj
    simp only [hofUpdateOne] at hj
    split_ifs at hj
    · cases hj
    · simp only [List.mem_singleton] at hj
      exact Or.inl hj
  | cons a t =>
    intro j hj
    simp only [hofUpdateOne] at hj
    split_ifs at hj
    · exact Or.inr hj
    · rcases mem_hofInsert hj with rfl | hj
      · exact Or.inl rfl
      · exact Or.inr ((List.dropLast_sublist (a :: t)).subset hj)
    · rcases mem_hofInsert hj with rfl | hj
      · exact Or.inl rfl
      · exact Or.inr hj
    · exact Or.inr hj

theorem hofUpdateOne_sorted {similar : Ind → Ind → Bool} {hof : HallOfFame}
    (ind : Ind) (hs : List.Sorted fitLe hof.items) :
    List.Sorted fitLe (hofUpdateOne similar hof ind).items := by
  obtain ⟨K, items⟩ := hof
  cases items with
  | nil =>
    simp only [hofUpdateOne]
    split_ifs
    · exact hs
    · simp
  | cons a t =>
    simp only [hofUpdateOne]
    split_ifs
    · exact hs
    · exact hofInsert_sorted ind (hs.sublist (List.dropLast_sublist (a :: t)))
    · exact hofInsert_sorted ind hs
    · exact hs

theorem hofUpdateOne_ne {similar : Ind → Ind → Bool} {hof : HallOfFame}
    {ind : Ind} (hne : hof.items ≠ [] ∨ 1 ≤ hof.maxsize) :
    (hofUpdateOne similar hof ind).items ≠ [] := by
  obtain ⟨K, items⟩ := hof
  cases items with
  | nil =>
    have hK : 1 ≤ K := by
      rcases hne with hbad | hK
      · exact absurd rfl hbad
      · exact hK
    simp only [hofUpdateOne]
    split_ifs with h0
    · omega
    · simp
  | cons a t =>
    simp only [hofUpdateOne]
    split_ifs
    · simp
    · exact hofInsert_ne ind _
    · exact hofInsert_ne ind _
    · simp

theorem hofUpdateOne_best_le {similar : Ind → Ind → Bool} {hof : HallOfFame}
    (ind : Ind) (hs : List.Sorted fitLe hof.items) (hne : hof.items ≠ []) :
    listBest (hofUpdateOne similar hof ind).items ≤ listBest hof.items := by
  obtain ⟨K, items⟩ := hof
  cases items with
  | nil => exact absurd rfl hne
  | cons a t =>
    simp only [hofUpdateOne]
    split_ifs with h1 h2 h3
    · exact Nat.le_refl _
    · cases t with
      | nil =>
        simp only [List.length_singleton] at h3
        rcases h1 with h1 | h1
        · simp only [List.getLastD] at h1
          simp only [List.dropLast_single]
          have hlt := Nat.le_of_lt h1
          simp only [hofInsert, List.orderedInsert, listBest]
          exact hlt
        · simp only [List.length_singleton] at h1
          omega
      | cons b t2 =>
        have hd : (a :: b :: t2).dropLast = a :: (b :: t2).dropLast := by simp
        rw [hd]
        exact Nat.le_trans
          (listBest_hofInsert_le ind (by simp))
          (Nat.le_refl _)
    · exact listBest_hofInsert_le ind (by simp)
    · exact Nat.le_refl _

theorem hofUpdateOne_best_le_cand {similar : Ind → Ind → Bool}
    {hof : HallOfFame} {ind : Ind} (hs : List.Sorted fitLe hof.items)
    (hmax : 1 ≤ hof.maxsize)
    (hsim : ∀ h ∈ hof.items, similar ind h = true → fitVal h = fitVal ind) :
    listBest (hofUpdateOne similar hof ind).items ≤ fitVal ind := by
  obtain ⟨K, items⟩ := hof
  cases items with
  | nil =>
    have hK : 1 ≤ K := hmax
    simp only [hofUpdateOne]
    split_ifs with h0
    · omega
    · simp [listBest]
  | cons a t =>
    simp only [hofUpdateOne]
    split_ifs with h1 h2 h3
    · rcases List.any_eq_true.mp h2 with ⟨x, hx, hsx⟩
      have := hsim x hx hsx
      calc listBest (a :: t) ≤ fitVal x := listBest_le_of_mem hs hx
        _ = fitVal ind := this
    · exact listBest_hofInsert_le_self ind _
    · exact listBest_hofInsert_le_self ind _
    · push_neg at h1
      have hworst : t.getLastD a ∈ a :: t := List.getLastD_mem_cons t a
      calc listBest (a :: t) ≤ fitVal (t.getLastD a) :=
            listBest_le_of_mem hs hworst
        _ ≤ fitVal ind := h1.1

/-- Standing well-formedness of the archive: sorted best-first, every
member evaluated, with a stored fitness honest w.r.t. the evaluation
function. -/
def HofInv (ev : List Nat → Nat) (hof : HallOfFame) : Prop :=
  List.Sorted fitLe hof.items ∧
  ∀ i ∈ hof.items, i.fitness.isSome = true ∧ FitOK ev i

theorem fitVal_eq_of_similar {similar : Ind → Ind → Bool}
    {ev : List Nat → Nat} {c h : Ind}
    (hsimg : ∀ a b, similar a b = true → a.genes = b.genes)
    (hh : h.fitness.isSome = true ∧ FitOK ev h)
    (hcc : c.fitness.isSome = true ∧ FitOK ev c)
    (hs : similar c h = true) : fitVal h = fitVal c := by
  obtain ⟨f, hf⟩ := Option.isSome_iff_exists.mp hh.1
  obtain ⟨g, hg⟩ := Option.isSome_iff_exists.mp hcc.1
  have h1 := hh.2 f hf
  have h2 := hcc.2 g hg
  have hgen := hsimg c h hs
  simp only [fitVal, hf, hg, Option.getD_some, h1, h2, hgen]

theorem hofUpdateOne_inv {similar : Ind → Ind → Bool} {ev : List Nat → Nat}
    {hof : HallOfFame} {c : Ind} (hinv : HofInv ev hof)
    (hc : c.fitness.isSome = true ∧ FitOK ev c) :
    HofInv ev (hofUpdateOne similar hof c) := by
  refine ⟨hofUpdateOne_sorted c hinv.1, ?_⟩
  intro i hi
  rcases hofUpdateOne_mem i hi with rfl | hi
  · exact hc
  · exact hinv.2 i hi

theorem hofUpdate_maxsize (similar : Ind → Ind → Bool) (hof : HallOfFame)
    (pop : List Ind) : (hofUpdate similar hof pop).maxsize = hof.maxsize := by
  induction pop generalizing hof with
  | nil => rfl
  | cons c rest ih =>
    show (hofUpdate similar (hofUpdateOne similar hof c) rest).maxsize = _
    rw [ih, hofUpdateOne_maxsize]

theorem hofUpdate_inv {similar : Ind → Ind → Bool} {ev : List Nat → Nat}
    {hof : HallOfFame} {pop : List Ind} (hinv : HofInv ev hof)
    (hc : ∀ c ∈ pop, c.fitness.isSome = true ∧ FitOK ev c) :
    HofInv ev (hofUpdate similar hof pop) := by
  induction pop generalizing hof with
  | nil => exact hinv
  | cons c rest ih =>
    exact ih (hofUpdateOne_inv hinv (hc c (List.mem_cons_self c rest)))
      fun x hx => hc x (List.mem_cons_of_mem c hx)

theorem hofUpdate_length {similar : Ind → Ind → Bool} {hof : HallOfFame}
    {pop : List Ind} (h : hof.items.length ≤ hof.maxsize) :
    (hofUpdate similar hof pop).items.length ≤ hof.maxsize := by
  induction pop generalizing hof with
  | nil => exact h
  | cons c rest ih =>
    show (hofUpdate similar (hofUpdateOne similar hof c) rest).items.length ≤ _
    have h1 : (hofUpdateOne similar hof c).items.length ≤
        (hofUpdateOne similar hof c).maxsize := by
      rw [hofUpdateOne_maxsize]
      exact hofUpdateOne_length c h
    have := ih h1
    rwa [hofUpdateOne_maxsize] at this

theorem hofUpdate_ne {similar : Ind → Ind → Bool} {hof : HallOfFame}
    {pop : List Ind} (hmax : 1 ≤ hof.maxsize)
    (hne : hof.items ≠ [] ∨ pop ≠ []) :
    (hofUpdate similar hof pop).items ≠ [] := by
  induction pop generalizing hof with
  | nil =>
    rcases hne with hne | hbad
    · exact hne
    · exact absurd rfl hbad
  | cons c rest ih =>
    show (hofUpdate similar (hofUpdateOne similar hof c) rest).items ≠ []
    refine ih ?_ (Or.inl (hofUpdateOne_ne (Or.inr hmax)))
    rw [hofUpdateOne_maxsize]
    exact hmax

theorem hofUpdate_best {similar : Ind → Ind → Bool} {ev : List Nat → Nat}
    {hof : HallOfFame} {pop : List Ind}
    (hsimg : ∀ a b, similar a b = true → a.genes = b.genes)
    (hmax : 1 ≤ hof.maxsize) (hinv : HofInv ev hof)
    (hc : ∀ c ∈ pop, c.fitness.isSome = true ∧ FitOK ev c) :
    (∀ c ∈ pop, listBest (hofUpdate similar hof pop).items ≤ fitVal c) ∧
    (hof.items ≠ [] →
      listBest (hofUpdate similar hof pop).items ≤ listBest hof.items) := by
  induction pop generalizing hof with
  | nil => exact ⟨fun c hc0 => absurd hc0 (List.not_mem_nil c), fun _ => Nat.le_refl _⟩
  | cons c rest ih =>
    have hcv := hc c (List.mem_cons_self c rest)
    have hrest : ∀ x ∈ rest, x.fitness.isSome = true ∧ FitOK ev x :=
      fun x hx => hc x (List.mem_cons_of_mem c hx)
    have hinv1 := @hofUpdateOne_inv similar _ _ _ hinv hcv
    have hmax1 : 1 ≤ (hofUpdateOne similar hof c).maxsize := by
      rw [hofUpdateOne_maxsize]; exact hmax
    have hne1 : (hofUpdateOne similar hof c).items ≠ [] :=
      hofUpdateOne_ne (Or.inr hmax)
    have hb1 : listBest (hofUpdateOne similar hof c).items ≤ fitVal c := by
      refine hofUpdateOne_best_le_cand hinv.1 hmax ?_
      intro h hh hsh
      exact fitVal_eq_of_similar hsimg (hinv.2 h hh) hcv hsh
    obtain ⟨ihAll, ihBest⟩ := ih hmax1 hinv1 hrest
    have hstep : hofUpdate similar hof (c :: rest) =
        hofUpdate similar (hofUpdateOne similar hof c) rest := rfl
    constructor
    · intro x hx
      rcases List.mem_cons.mp hx with rfl | hx
      · rw [hstep]
        exact Nat.le_trans (ihBest hne1) hb1
      · rw [hstep]
        exact ihAll x hx
    · intro hne
      rw [hstep]
      exact Nat.le_trans (ihBest hne1) (hofUpdateOne_best_le c hinv.1 hne)

theorem hofUpdate_best_popMin {similar : Ind → Ind → Bool}
    {ev : List Nat → Nat} {hof : HallOfFame} {pop : List Ind}
    (hsimg : ∀ a b, similar a b = true → a.genes = b.genes)
    (hmax : 1 ≤ hof.maxsize) (hinv : HofInv ev hof)
    (hc : ∀ c ∈ pop, c.fitness.isSome = true ∧ FitOK ev c)
    (hne : pop ≠ []) :
    listBest (hofUpdate similar hof pop).items ≤ popMin pop := by
  obtain ⟨i, hi, he⟩ := popMin_mem hne
  rw [← he]
  exact (hofUpdate_best hsimg hmax hinv hc).1 i hi

/-! ### Shape lemmas for one generation -/

theorem genStep_done {cfg : EngineCfg σ} {s : EngineState σ}
    (h : s.done = true) : genStep cfg s = s := by
  simp [genStep, h]

theorem genStep_not_done {cfg : EngineCfg σ} {s : EngineState σ}
    (h : s.done = false) :
    genStep cfg s = genTail cfg s (selectionPhase cfg s) := by
  simp [genStep, h]

@[simp] theorem genTail_population (cfg : EngineCfg σ) (s : EngineState σ)
    (so : SelOut σ) : (genTail cfg s so).population = newPop cfg so := rfl

@[simp] theorem genTail_offspring (cfg : EngineCfg σ) (s : EngineState σ)
    (so : SelOut σ) : (genTail cfg s so).offspring = newPop cfg so := rfl

@[simp] theorem genTail_hof (cfg : EngineCfg σ) (s : EngineState σ)
    (so : SelOut σ) :
    (genTail cfg s so).hof = hofUpdate cfg.similar so.hof (newPop cfg so) :=
  rfl

@[simp] theorem genTail_logbook (cfg : EngineCfg σ) (s : EngineState σ)
    (so : SelOut σ) :
    (genTail cfg s so).logbook = s.logbook ++ [newRec cfg (s.gen + 1) so] :=
  rfl

@[simp] theorem genTail_hofSize (cfg : EngineCfg σ) (s : EngineState σ)
    (so : SelOut σ) : (genTail cfg s so).hofSize = s.hofSize := rfl

@[simp] theorem genTail_gen (cfg : EngineCfg σ) (s : EngineState σ)
    (so : SelOut σ) : (genTail cfg s so).gen = s.gen + 1 := rfl

@[simp] theorem genTail_lastMin (cfg : EngineCfg σ) (s : EngineState σ)
    (so : SelOut σ) :
    (genTail cfg s so).lastMin =
      some (natMin ((s.logbook ++ [newRec cfg (s.gen + 1) so]).map
        fun r => r.minFit)) := rfl

@[simp] theorem genTail_doneFlag (cfg : EngineCfg σ) (s : EngineState σ)
    (so : SelOut σ) :
    (genTail cfg s so).done =
      decide (natMin ((s.logbook ++ [newRec cfg (s.gen + 1) so]).map
        fun r => r.minFit) = 0) := rfl

@[simp] theorem genTail_stuckCount (cfg : EngineCfg σ) (s : EngineState σ)
    (so : SelOut σ) :
    (genTail cfg s so).stuckCount =
      match s.lastMin with
      | none => stuckAfterBranch cfg s
      | some m =>
        if m = 0 then stuckAfterBranch cfg s
        else if natMin ((s.logbook ++ [newRec cfg (s.gen + 1) so]).map
            fun r => r.minFit) = m then stuckAfterBranch cfg s + 1
        else 0 := rfl

@[simp] theorem newRec_minFit (cfg : EngineCfg σ) (g : Nat) (so : SelOut σ) :
    (newRec cfg g so).minFit = popMin (newPop cfg so) := rfl

@[simp] theorem newRec_gen (cfg : EngineCfg σ) (g : Nat) (so : SelOut σ) :
    (newRec cfg g so).gen = g := rfl

@[simp] theorem newRec_shockEvent (cfg : EngineCfg σ) (g : Nat)
    (so : SelOut σ) : (newRec cfg g so).shockEvent = some so.shock := rfl

@[simp] theorem newRec_radiation (cfg : EngineCfg σ) (g : Nat)
    (so : SelOut σ) : (newRec cfg g so).radiation = some so.radiation := rfl

theorem selectionPhase_no_trigger {cfg : EngineCfg σ} {s : EngineState σ}
    (h : triggerFires cfg s = false) :
    selectionPhase cfg s =
      { pool := (cfg.tb.select s.population
          (s.population.length - s.hofSize) s.rng).1,
        hof := s.hof, mutpb := mutAfterDecay cfg s,
        radiation := radAfterDecay s, shock := "",
        rng := (cfg.tb.select s.population
          (s.population.length - s.hofSize) s.rng).2 } := by
  simp [selectionPhase, h]

theorem selectionPhase_comet {cfg : EngineCfg σ} {s : EngineState σ}
    (ht : triggerFires cfg s = true) (hk : cfg.stuckKind = "Comet Strike") :
    selectionPhase cfg s =
      { pool := (cfg.tb.populationCreator (s.population.length - 3) s.rng).1
          ++ s.hof.items.take 3,
        hof := { s.hof with items := [] }, mutpb := mutAfterDecay cfg s,
        radiation := radAfterDecay s, shock := "Comet Strike",
        rng := (cfg.tb.populationCreator (s.population.length - 3) s.rng).2 } := by
  simp only [selectionPhase, ht, if_true, hk]
  simp

theorem selectionPhase_leak {cfg : EngineCfg σ} {s : EngineState σ}
    (ht : triggerFires cfg s = true)
    (hk : cfg.stuckKind = "Radiation Leak") :
    selectionPhase cfg s =
      { pool := s.offspring, hof := s.hof, mutpb := (1 : ℚ) / 2,
        radiation := cfg.stuckGen, shock := "Radiation Leak",
        rng := s.rng } := by
  simp only [selectionPhase, ht, if_true, hk]
  simp

theorem selectionPhase_other {cfg : EngineCfg σ} {s : EngineState σ}
    (ht : triggerFires cfg s = true)
    (hkc : cfg.stuckKind ≠ "Comet Strike")
    (hkr : cfg.stuckKind ≠ "Radiation Leak") :
    selectionPhase cfg s =
      { pool := s.offspring, hof := s.hof, mutpb := mutAfterDecay cfg s,
        radiation := radAfterDecay s, shock := "", rng := s.rng } := by
  simp [selectionPhase, ht, hkc, hkr]

/-! ### The engine invariant -/

/-- The contract of the DEAP operators used by the engine, as stated by the
spec's external-interface section: `select(population, n)` returns `n`
individuals drawn from the population; `varAnd` returns a same-length pool
each of whose members is either a fresh (invalidated) variant or an
untouched clone of an input; `populationCreator n` returns `n` fresh
unevaluated individuals; the `similar` predicate compares gene sequences. -/
structure TBOK (tb : Toolbox σ) (similar : Ind → Ind → Bool) : Prop where
  select_len : ∀ pop n r, ((tb.select pop n r).1).length = n
  select_mem : ∀ pop n r, pop ≠ [] → ∀ i ∈ (tb.select pop n r).1, i ∈ pop
  vary_len : ∀ cx mu l r, ((tb.vary cx mu l r).1).length = l.length
  vary_mem : ∀ cx mu l r, ∀ i ∈ (tb.vary cx mu l r).1,
    i.fitness = none ∨ i ∈ l
  creator_len : ∀ n r, ((tb.populationCreator n r).1).length = n
  creator_new : ∀ n r, ∀ i ∈ (tb.populationCreator n r).1, i.fitness = none
  similar_genes : ∀ a b, similar a b = true → a.genes = b.genes

/-- The elitism relation between consecutive logbook rows: the recorded
minimum may only regress on a row labelled with the Comet Strike shock. -/
def MonoExceptComet (r1 r2 : StatRecord) : Prop :=
  r2.shockEvent ≠ some "Comet Strike" → r2.minFit ≤ r1.minFit

/-- The run invariant, holding at every generation boundary. -/
structure Inv (cfg : EngineCfg σ) (s : EngineState σ) : Prop where
  popNe : s.population ≠ []
  popOK : ∀ i ∈ s.population,
    i.fitness.isSome = true ∧ FitOK cfg.tb.evaluate i
  offOK : ∀ i ∈ s.offspring, FitOK cfg.tb.evaluate i
  hofInv : HofInv cfg.tb.evaluate s.hof
  hofNe : s.hof.items ≠ []
  hofLen : s.hof.items.length ≤ s.hof.maxsize
  hofMax : 1 ≤ s.hof.maxsize
  lastRec : ∃ r, s.logbook.getLast? = some r ∧ r.minFit = popMin s.population
    ∧ bestFit s.hof ≤ r.minFit
  chain : List.Chain' MonoExceptComet s.logbook

theorem FitOK_of_none {ev : List Nat → Nat} {i : Ind}
    (h : i.fitness = none) : FitOK ev i := by
  intro f hf
  rw [h] at hf
  cases hf

theorem bestFit_mem {hof : HallOfFame} (h : hof.items ≠ []) :
    ∃ i ∈ hof.items, fitVal i = bestFit hof := by
  cases hh : hof.items with
  | nil => exact absurd hh h
  | cons a t =>
    refine ⟨a, List.mem_cons_self a t, ?_⟩
    rw [bestFit, hh]
    rfl

/-- Preservation of the invariant by the tail of a generation, given the
facts established for each shock/selection branch. -/
theorem tail_inv {cfg : EngineCfg σ} {s : EngineState σ} {so : SelOut σ}
    (htb : TBOK cfg.tb cfg.similar)
    (hpool : ∀ i ∈ so.pool, FitOK cfg.tb.evaluate i)
    (hhofInv : HofInv cfg.tb.evaluate so.hof)
    (hhofLen : so.hof.items.length ≤ so.hof.maxsize)
    (hhofMax : 1 ≤ so.hof.maxsize)
    (hne : so.hof.items = [] → so.pool ≠ [])
    (hlink : so.shock ≠ "Comet Strike" → so.hof.items ≠ [] ∧
      ∃ r, s.logbook.getLast? = some r ∧ bestFit so.hof ≤ r.minFit)
    (hchain : List.Chain' MonoExceptComet s.logbook) :
    Inv cfg (genTail cfg s so) := by
  have hvOK : ∀ i ∈ (variedPool cfg so).1, FitOK cfg.tb.evaluate i := by
    intro i hi
    rcases htb.vary_mem cfg.cxpb so.mutpb so.pool so.rng i hi with hn | hm
    · exact FitOK_of_none hn
    · exact hpool i hm
  have hoffOK : ∀ i ∈ (evalInvalid cfg.tb.evaluate (variedPool cfg so).1).1,
      FitOK cfg.tb.evaluate i := evalInvalid_fitOK hvOK
  have hpopOK : ∀ i ∈ newPop cfg so,
      i.fitness.isSome = true ∧ FitOK cfg.tb.evaluate i := by
    intro i hi
    rcases List.mem_append.mp hi with hi | hi
    · exact ⟨evalInvalid_valid i hi, hoffOK i hi⟩
    · exact hhofInv.2 i hi
  have hvne : so.pool ≠ [] → (variedPool cfg so).1 ≠ [] := by
    intro hp h0
    have hlen : (variedPool cfg so).1.length = so.pool.length :=
      htb.vary_len cfg.cxpb so.mutpb so.pool so.rng
    rw [h0] at hlen
    simp only [List.length_nil] at hlen
    exact hp (List.length_eq_zero.mp hlen.symm)
  have hpopNe : newPop cfg so ≠ [] := by
    intro h0
    rcases List.append_eq_nil.mp h0 with ⟨h1, h2⟩
    exact evalInvalid_ne (hvne (hne h2)) h1
  refine ⟨?_, ?_, ?_, ?_, ?_, ?_, ?_, ?_, ?_⟩
  · rw [genTail_population]
    exact hpopNe
  · rw [genTail_population]
    exact hpopOK
  · rw [genTail_offspring]
    exact fun i hi => (hpopOK i hi).2
  · rw [genTail_hof]
    exact hofUpdate_inv hhofInv hpopOK
  · rw [genTail_hof]
    exact hofUpdate_ne hhofMax (Or.inr hpopNe)
  · rw [genTail_hof, hofUpdate_maxsize]
    exact hofUpdate_length hhofLen
  · rw [genTail_hof, hofUpdate_maxsize]
    exact hhofMax
  · refine ⟨newRec cfg (s.gen + 1) so, ?_, ?_, ?_⟩
    · rw [genTail_logbook]
      exact List.getLast?_concat _
    · rw [genTail_population, newRec_minFit]
    · rw [genTail_hof, newRec_minFit]
      exact hofUpdate_best_popMin htb.similar_genes hhofMax hhofInv hpopOK
        hpopNe
  · rw [genTail_logbook]
    refine (List.chain'_append).mpr ⟨hchain, List.chain'_singleton _, ?_⟩
    intro x hx y hy
    simp only [List.head?_cons, Option.mem_def, Option.some.injEq] at hy
    subst hy
    intro hshock
    rw [newRec_shockEvent] at hshock
    have hso : so.shock ≠ "Comet Strike" := by
      intro h0
      exact hshock (by rw [h0])
    obtain ⟨hhofne, r, hr, hbr⟩ := hlink hso
    have hxr : r = x := by
      rw [Option.mem_def] at hx
      rw [hx] at hr
      exact (Option.some.injEq r x ▸ hr.symm :)
    rw [newRec_minFit]
    obtain ⟨i, hiMem, hiVal⟩ := bestFit_mem hhofne
    have hiPop : i ∈ newPop cfg so := List.mem_append_right _ hiMem
    calc popMin (newPop cfg so) ≤ fitVal i := popMin_le_of_mem hiPop
      _ = bestFit so.hof := hiVal
      _ ≤ r.minFit := hbr
      _ = x.minFit := by rw [hxr]

/-- Preservation of the invariant by one generation, whichever branch the
stagnation controller takes. -/
theorem inv_step {cfg : EngineCfg σ} {s : EngineState σ}
    (htb : TBOK cfg.tb cfg.similar) (hinv : Inv cfg s) :
    Inv cfg (genStep cfg s) := by
  by_cases hd : s.done = true
  · rw [genStep_done hd]
    exact hinv
  · have hd2 : s.done = false := by simpa using hd
    rw [genStep_not_done hd2]
    have hlinkStd : ∀ sh : String, sh ≠ "Comet Strike" → s.hof.items ≠ [] ∧
        ∃ r, s.logbook.getLast? = some r ∧ bestFit s.hof ≤ r.minFit := by
      intro sh _
      obtain ⟨r, hr, _, hb⟩ := hinv.lastRec
      exact ⟨hinv.hofNe, r, hr, hb⟩
    by_cases ht : triggerFires cfg s = true
    · by_cases hk : cfg.stuckKind = "Comet Strike"
      · rw [selectionPhase_comet ht hk]
        refine tail_inv htb ?_ ?_ ?_ hinv.hofMax ?_ ?_ hinv.chain
        · intro i hi
          rcases List.mem_append.mp hi with hi | hi
          · exact FitOK_of_none (htb.creator_new _ _ i hi)
          · exact (hinv.hofInv.2 i ((List.take_sublist 3 _).subset hi)).2
        · exact ⟨List.sorted_nil, by intro i hi; cases hi⟩
        · simp
        · intro _ h0
          rcases List.append_eq_nil.mp h0 with ⟨_, h2⟩
          rcases List.take_eq_nil_iff.mp h2 with h3 | h3
          · cases h3
          · exact hinv.hofNe h3
        · intro hso
          exact absurd rfl hso
      · by_cases hk2 : cfg.stuckKind = "Radiation Leak"
        · rw [selectionPhase_leak ht hk2]
          refine tail_inv htb ?_ hinv.hofInv hinv.hofLen hinv.hofMax ?_ ?_
            hinv.chain
          · exact fun i hi => hinv.offOK i hi
          · intro h0
            exact absurd h0 hinv.hofNe
          · exact hlinkStd _
        · rw [selectionPhase_other ht hk hk2]
          refine tail_inv htb ?_ hinv.hofInv hinv.hofLen hinv.hofMax ?_ ?_
            hinv.chain
          · exact fun i hi => hinv.offOK i hi
          · intro h0
            exact absurd h0 hinv.hofNe
          · exact hlinkStd _
    · have ht2 : triggerFires cfg s = false := by simpa using ht
      rw [selectionPhase_no_trigger ht2]
      refine tail_inv htb ?_ hinv.hofInv hinv.hofLen hinv.hofMax ?_ ?_
        hinv.chain
      · intro i hi
        exact (hinv.popOK i (htb.select_mem _ _ _ hinv.popNe i hi)).2
      · intro h0
        exact absurd h0 hinv.hofNe
      · exact hlinkStd _

@[simp] theorem eaStart_population (cfg : EngineCfg σ) (pop0 : List Ind)
    (hof0 : HallOfFame) (rng : σ) :
    (eaStart cfg pop0 hof0 rng).population =
      (evalInvalid cfg.tb.evaluate pop0).1 := rfl

@[simp] theorem eaStart_offspring (cfg : EngineCfg σ) (pop0 : List Ind)
    (hof0 : HallOfFame) (rng : σ) :
    (eaStart cfg pop0 hof0 rng).offspring = [] := rfl

@[simp] theorem eaStart_hof (cfg : EngineCfg σ) (pop0 : List Ind)
    (hof0 : HallOfFame) (rng : σ) :
    (eaStart cfg pop0 hof0 rng).hof =
      hofUpdate cfg.similar hof0 (evalInvalid cfg.tb.evaluate pop0).1 := rfl

@[simp] theorem eaStart_hofSize (cfg : EngineCfg σ) (pop0 : List Ind)
    (hof0 : HallOfFame) (rng : σ) :
    (eaStart cfg pop0 hof0 rng).hofSize =
      (hofUpdate cfg.similar hof0
        (evalInvalid cfg.tb.evaluate pop0).1).items.length := rfl

@[simp] theorem eaStart_gen (cfg : EngineCfg σ) (pop0 : List Ind)
    (hof0 : HallOfFame) (rng : σ) : (eaStart cfg pop0 hof0 rng).gen = 0 := rfl

@[simp] theorem eaStart_doneFlag (cfg : EngineCfg σ) (pop0 : List Ind)
    (hof0 : HallOfFame) (rng : σ) :
    (eaStart cfg pop0 hof0 rng).done = false := rfl

@[simp] theorem eaStart_lastMin (cfg : EngineCfg σ) (pop0 : List Ind)
    (hof0 : HallOfFame) (rng : σ) :
    (eaStart cfg pop0 hof0 rng).lastMin = none := rfl

@[simp] theorem eaStart_stuckCount (cfg : EngineCfg σ) (pop0 : List Ind)
    (hof0 : HallOfFame) (rng : σ) :
    (eaStart cfg pop0 hof0 rng).stuckCount = 0 := rfl

@[simp] theorem eaStart_radiation (cfg : EngineCfg σ) (pop0 : List Ind)
    (hof0 : HallOfFame) (rng : σ) :
    (eaStart cfg pop0 hof0 rng).radiation = 0 := rfl

@[simp] theorem eaStart_logbook (cfg : EngineCfg σ) (pop0 : List Ind)
    (hof0 : HallOfFame) (rng : σ) :
    (eaStart cfg pop0 hof0 rng).logbook =
      [{ gen := 0, nevals := (evalInvalid cfg.tb.evaluate pop0).2,
         minFit := popMin (evalInvalid cfg.tb.evaluate pop0).1,
         avgFit := popAvg (evalInvalid cfg.tb.evaluate pop0).1,
         radiation := none, shockEvent := none }] := rfl

/-- The invariant holds at generation 0 for a run started, as
`ga_solve` does, from an unevaluated population and a fresh empty hall of
fame of capacity at least 1. -/
theorem inv_start {cfg : EngineCfg σ} {pop0 : List Ind} {K : Nat} {rng : σ}
    (htb : TBOK cfg.tb cfg.similar) (hne : pop0 ≠ [])
    (hfresh : ∀ i ∈ pop0, i.fitness = none) (hK : 1 ≤ K) :
    Inv cfg (eaStart cfg pop0 ⟨K, []⟩ rng) := by
  have hpopOK : ∀ i ∈ (evalInvalid cfg.tb.evaluate pop0).1,
      i.fitness.isSome = true ∧ FitOK cfg.tb.evaluate i := by
    intro i hi
    refine ⟨evalInvalid_valid i hi, ?_⟩
    exact evalInvalid_fitOK (fun j hj => FitOK_of_none (hfresh j hj)) i hi
  have hpopNe : (evalInvalid cfg.tb.evaluate pop0).1 ≠ [] := evalInvalid_ne hne
  have hempty : HofInv cfg.tb.evaluate ⟨K, []⟩ :=
    ⟨List.sorted_nil, by intro i hi; cases hi⟩
  refine ⟨?_, ?_, ?_, ?_, ?_, ?_, ?_, ?_, ?_⟩
  · rw [eaStart_population]
    exact hpopNe
  · rw [eaStart_population]
    exact hpopOK
  · rw [eaStart_offspring]
    intro i hi
    cases hi
  · rw [eaStart_hof]
    exact hofUpdate_inv hempty hpopOK
  · rw [eaStart_hof]
    exact hofUpdate_ne hK (Or.inr hpopNe)
  · rw [eaStart_hof, hofUpdate_maxsize]
    exact hofUpdate_length (by simp)
  · rw [eaStart_hof, hofUpdate_maxsize]
    exact hK
  · refine ⟨⟨0, (evalInvalid cfg.tb.evaluate pop0).2,
        popMin (evalInvalid cfg.tb.evaluate pop0).1,
        popAvg (evalInvalid cfg.tb.evaluate pop0).1, none, none⟩,
      rfl, rfl, ?_⟩
    exact hofUpdate_best_popMin htb.similar_genes hK hempty hpopOK hpopNe
  · rw [eaStart_logbook]
    exact List.chain'_singleton _

/-- The invariant holds at every generation boundary. -/
theorem inv_run {cfg : EngineCfg σ} {pop0 : List Ind} {K : Nat} {rng : σ}
    (htb : TBOK cfg.tb cfg.similar) (hne : pop0 ≠ [])
    (hfresh : ∀ i ∈ pop0, i.fitness = none) (hK : 1 ≤ K) :
    ∀ g, Inv cfg (eaRun cfg pop0 ⟨K, []⟩ rng g) := by
  intro g
  induction g with
  | zero => exact inv_start htb hne hfresh hK
  | succ n ih =>
    rw [eaRun, Function.iterate_succ_apply']
    exact inv_step htb ih

/-! ### Structural run lemmas -/

theorem selectionPhase_hof_maxsize (cfg : EngineCfg σ) (s : EngineState σ) :
    (selectionPhase cfg s).hof.maxsize = s.hof.maxsize := by
  by_cases ht : triggerFires cfg s = true
  · by_cases hk : cfg.stuckKind = "Comet Strike"
    · rw [selectionPhase_comet ht hk]
    · by_cases hk2 : cfg.stuckKind = "Radiation Leak"
      · rw [selectionPhase_leak ht hk2]
      · rw [selectionPhase_other ht hk hk2]
  · rw [selectionPhase_no_trigger (by simpa using ht)]

theorem genStep_maxsize (cfg : EngineCfg σ) (s : EngineState σ) :
    (genStep cfg s).hof.maxsize = s.hof.maxsize := by
  by_cases hd : s.done = true
  · rw [genStep_done hd]
  · rw [genStep_not_done (by simpa using hd), genTail_hof, hofUpdate_maxsize,
      selectionPhase_hof_maxsize]

theorem genStep_hofSize (cfg : EngineCfg σ) (s : EngineState σ) :
    (genStep cfg s).hofSize = s.hofSize := by
  by_cases hd : s.done = true
  · rw [genStep_done hd]
  · rw [genStep_not_done (by simpa using hd), genTail_hofSize]

theorem eaRun_maxsize (cfg : EngineCfg σ) (pop0 : List Ind)
    (hof0 : HallOfFame) (rng : σ) (g : Nat) :
    (eaRun cfg pop0 hof0 rng g).hof.maxsize = hof0.maxsize := by
  induction g with
  | zero =>
    show (eaStart cfg pop0 hof0 rng).hof.maxsize = hof0.maxsize
    rw [eaStart_hof, hofUpdate_maxsize]
  | succ n ih =>
    rw [eaRun, Function.iterate_succ_apply', genStep_maxsize]
    exact ih

theorem done_fixpoint {cfg : EngineCfg σ} {s : EngineState σ}
    (hd : s.done = true) : ∀ k, (genStep cfg)^[k] s = s := by
  intro k
  induction k with
  | zero => rfl
  | succ n ih => rw [Function.iterate_succ_apply', ih, genStep_done hd]

theorem eaRun_frozen {cfg : EngineCfg σ} {pop0 : List Ind}
    {hof0 : HallOfFame} {rng : σ} {g : Nat}
    (hd : (eaRun cfg pop0 hof0 rng g).done = true) :
    ∀ n, g ≤ n → eaRun cfg pop0 hof0 rng n = eaRun cfg pop0 hof0 rng g := by
  intro n hn
  have : eaRun cfg pop0 hof0 rng n =
      (genStep cfg)^[n - g] (eaRun cfg pop0 hof0 rng g) := by
    rw [eaRun, eaRun, ← Function.iterate_add_apply]
    congr 1
    omega
  rw [this, done_fixpoint hd]

theorem genStep_logbook_not_done {cfg : EngineCfg σ} {s : EngineState σ}
    (hd : s.done = false) :
    (genStep cfg s).logbook =
      s.logbook ++ [newRec cfg (s.gen + 1) (selectionPhase cfg s)] := by
  rw [genStep_not_done hd, genTail_logbook]

theorem genStep_done_iff_zero {cfg : EngineCfg σ} {s : EngineState σ}
    (hd : s.done = false) :
    ((genStep cfg s).done = true ↔
      ∃ r ∈ (genStep cfg s).logbook, r.minFit = 0) := by
  rw [genStep_not_done hd, genTail_doneFlag, genTail_logbook]
  rw [decide_eq_true_iff]
  have hne : (s.logbook ++ [newRec cfg (s.gen + 1) (selectionPhase cfg s)]).map
      (fun r => r.minFit) ≠ [] := by simp
  rw [natMin_eq_zero_iff hne]
  constructor
  · rintro ⟨x, hx, rfl⟩
    rcases List.mem_map.mp hx with ⟨r, hr, he⟩
    exact ⟨r, hr, he⟩
  · rintro ⟨r, hr, he⟩
    exact ⟨r.minFit, List.mem_map_of_mem _ hr, he⟩

theorem eaRun_zero_done {cfg : EngineCfg σ} {pop0 : List Ind} {K : Nat}
    {rng : σ} :
    ∀ g, 1 ≤ g →
      (∃ r ∈ (eaRun cfg pop0 ⟨K, []⟩ rng g).logbook, r.minFit = 0) →
      (eaRun cfg pop0 ⟨K, []⟩ rng g).done = true := by
  intro g
  induction g with
  | zero => intro h; omega
  | succ n ih =>
    intro _ hz
    by_cases hd : (eaRun cfg pop0 ⟨K, []⟩ rng n).done = true
    · have hfr : eaRun cfg pop0 ⟨K, []⟩ rng (n + 1) =
          eaRun cfg pop0 ⟨K, []⟩ rng n := by
        rw [eaRun, Function.iterate_succ_apply']
        exact genStep_done hd
      rw [hfr]
      exact hd
    · have hd2 : (eaRun cfg pop0 ⟨K, []⟩ rng n).done = false := by
        simpa using hd
      have hstep : eaRun cfg pop0 ⟨K, []⟩ rng (n + 1) =
          genStep cfg (eaRun cfg pop0 ⟨K, []⟩ rng n) := by
        rw [eaRun, Function.iterate_succ_apply']
        rfl
      rw [hstep]
      rw [hstep] at hz
      exact (genStep_done_iff_zero hd2).mpr hz

theorem eaRun_succ (cfg : EngineCfg σ) (pop0 : List Ind) (hof0 : HallOfFame)
    (rng : σ) (n : Nat) :
    eaRun cfg pop0 hof0 rng (n + 1) =
      genStep cfg (eaRun cfg pop0 hof0 rng n) := by
  rw [eaRun, Function.iterate_succ_apply']
  rfl

/-! ### Population-length accounting -/

theorem newPop_length {cfg : EngineCfg σ} (htb : TBOK cfg.tb cfg.similar)
    (so : SelOut σ) :
    (newPop cfg so).length = so.pool.length + so.hof.items.length := by
  simp only [newPop, variedPool, List.length_append, evalInvalid_length,
    htb.vary_len]

theorem stepLen_no_trigger {cfg : EngineCfg σ} {s : EngineState σ}
    (htb : TBOK cfg.tb cfg.similar) (hd : s.done = false)
    (ht : triggerFires cfg s = false) :
    (genStep cfg s).population.length =
      (s.population.length - s.hofSize) + s.hof.items.length := by
  simp only [genStep_not_done hd, selectionPhase_no_trigger ht,
    genTail_population, newPop_length htb, htb.select_len]

theorem stepLen_nonCS_trigger {cfg : EngineCfg σ} {s : EngineState σ}
    (htb : TBOK cfg.tb cfg.similar) (hd : s.done = false)
    (ht : triggerFires cfg s = true)
    (hk : cfg.stuckKind ≠ "Comet Strike") :
    (genStep cfg s).population.length =
      s.offspring.length + s.hof.items.length := by
  by_cases hk2 : cfg.stuckKind = "Radiation Leak"
  · simp only [genStep_not_done hd, selectionPhase_leak ht hk2,
      genTail_population, newPop_length htb]
  · simp only [genStep_not_done hd, selectionPhase_other ht hk hk2,
      genTail_population, newPop_length htb]

theorem stepLen_comet {cfg : EngineCfg σ} {s : EngineState σ}
    (htb : TBOK cfg.tb cfg.similar) (hd : s.done = false)
    (ht : triggerFires cfg s = true)
    (hk : cfg.stuckKind = "Comet Strike") :
    (genStep cfg s).population.length =
      (s.population.length - 3) + min 3 s.hof.items.length := by
  simp only [genStep_not_done hd, selectionPhase_comet ht hk,
    genTail_population, newPop_length htb]
  simp [htb.creator_len, List.length_take]

/-- The conditions under which one generation preserves the population
length: either a normal selection generation whose hall of fame still holds
exactly the generation-0 `hof_size` items (of at most the population
length), or a Comet Strike firing while the hall of fame holds at least 3
items and the population at least 3 individuals. -/
def goodGen (cfg : EngineCfg σ) (s : EngineState σ) : Prop :=
  (triggerFires cfg s = false ∧ s.hof.items.length = s.hofSize ∧
    s.hofSize ≤ s.population.length) ∨
  (triggerFires cfg s = true ∧ cfg.stuckKind = "Comet Strike" ∧
    3 ≤ s.hof.items.length ∧ 3 ≤ s.population.length)

instance (cfg : EngineCfg σ) (s : EngineState σ) : Decidable (goodGen cfg s) := by
  unfold goodGen
  infer_instance

theorem stepLen_good {cfg : EngineCfg σ} {s : EngineState σ}
    (htb : TBOK cfg.tb cfg.similar)
    (hg : s.done = true ∨ goodGen cfg s) :
    (genStep cfg s).population.length = s.population.length := by
  rcases hg with hd | hg
  · rw [genStep_done hd]
  · by_cases hd : s.done = true
    · rw [genStep_done hd]
    · have hd2 : s.done = false := by simpa using hd
      rcases hg with ⟨ht, hlen, hle⟩ | ⟨ht, hk, h3, hp3⟩
      · rw [stepLen_no_trigger htb hd2 ht, hlen]
        omega
      · rw [stepLen_comet htb hd2 ht hk]
        omega

/-! ### Concrete collaborator instances for witnesses and counterexamples -/

/-- A trivial gene-0 individual used by the deterministic test toolbox. -/
def dummyInd : Ind := ⟨[0], none⟩

/-- A deterministic toolbox with constant fitness 1: selection repeats the
population head, variation is the identity, the population creator yields
fresh unevaluated individuals. -/
def tbConst : Toolbox Unit where
  select := fun pop n _ =>
    ((match pop with
      | [] => List.replicate n dummyInd
      | h :: _ => List.replicate n h), ())
  vary := fun _ _ l r => (l, r)
  evaluate := fun _ => 1
  populationCreator := fun n _ => (List.replicate n dummyInd, ())

/-- The toolbox of the spec's generation-0 early-stop scenario: fitness `0`
iff the first gene equals `5`, with a creator that generates first-gene-5
individuals. -/
def tbGene5 : Toolbox Unit where
  select := fun pop n _ =>
    ((match pop with
      | [] => List.replicate n dummyInd
      | h :: _ => List.replicate n h), ())
  vary := fun _ _ l r => (l, r)
  evaluate := fun g => if g.headD 0 = 5 then 0 else 1
  populationCreator := fun n _ => (List.replicate n (⟨[5], none⟩ : Ind), ())

/-- Gene-sequence equality, the model of `GASolver.np_equal`. -/
def simGenes : Ind → Ind → Bool := fun a b => decide (a.genes = b.genes)

theorem simGenes_genes : ∀ a b, simGenes a b = true → a.genes = b.genes :=
  fun _ _ h => of_decide_eq_true h

theorem tbConst_ok : TBOK tbConst simGenes := by
  refine ⟨?_, ?_, ?_, ?_, ?_, ?_, simGenes_genes⟩
  · intro pop n r
    cases pop <;> simp [tbConst]
  · intro pop n r hp i hi
    cases pop with
    | nil => exact absurd rfl hp
    | cons h t =>
      simp only [tbConst] at hi
      rw [List.eq_of_mem_replicate hi]
      exact List.mem_cons_self h t
  · intro cx mu l r
    rfl
  · intro cx mu l r i hi
    exact Or.inr hi
  · intro n r
    simp [tbConst]
  · intro n r i hi
    simp only [tbConst] at hi
    rw [List.eq_of_mem_replicate hi]
    rfl

theorem tbGene5_ok : TBOK tbGene5 simGenes := by
  refine ⟨?_, ?_, ?_, ?_, ?_, ?_, simGenes_genes⟩
  · intro pop n r
    cases pop <;> simp [tbGene5]
  · intro pop n r hp i hi
    cases pop with
    | nil => exact absurd rfl hp
    | cons h t =>
      simp only [tbGene5] at hi
      rw [List.eq_of_mem_replicate hi]
      exact List.mem_cons_self h t
  · intro cx mu l r
    rfl
  · intro cx mu l r i hi
    exact Or.inr hi
  · intro n r
    simp [tbGene5]
  · intro n r i hi
    simp only [tbGene5] at hi
    rw [List.eq_of_mem_replicate hi]

/-- Two distinct-gene individuals for concrete populations. -/
def indA : Ind := ⟨[0], none⟩

def indB : Ind := ⟨[1], none⟩

/-- Stagnation threshold 0 with a Radiation Leak: with the constant-fitness
toolbox the trigger fires at generation 3. -/
def cfgLeak : EngineCfg Unit :=
  ⟨tbConst, simGenes, 0, 0, 3, 0, "Radiation Leak"⟩

/-- The same scenario with the caller's hardcoded unrecognized kind. -/
def cfgCher : EngineCfg Unit :=
  ⟨tbConst, simGenes, 0, 0, 3, 0, "chernobyl"⟩

/-- The same scenario with a Comet Strike kind. -/
def cfgComet : EngineCfg Unit :=
  ⟨tbConst, simGenes, 0, 0, 3, 0, "Comet Strike"⟩

/-! ### Early-stop helper lemmas -/

theorem first_step_no_trigger (cfg : EngineCfg σ) (pop0 : List Ind)
    (hof0 : HallOfFame) (rng : σ) :
    triggerFires cfg (eaStart cfg pop0 hof0 rng) = false := by
  simp [triggerFires, stuckAfterDecay, radAfterDecay]

theorem stuckAfterBranch_start (cfg : EngineCfg σ) (pop0 : List Ind)
    (hof0 : HallOfFame) (rng : σ) :
    stuckAfterBranch cfg (eaStart cfg pop0 hof0 rng) = 0 := by
  simp [stuckAfterBranch, stuckAfterDecay, radAfterDecay]

/-- At the first generation the recorded minimum is bounded by the best
archived fitness of generation 0 (the elites are re-injected). -/
theorem first_rec_le_best (cfg : EngineCfg σ) (pop0 : List Ind)
    (hof0 : HallOfFame) (rng : σ)
    (hne : (eaStart cfg pop0 hof0 rng).hof.items ≠ []) :
    popMin (newPop cfg (selectionPhase cfg (eaStart cfg pop0 hof0 rng))) ≤
      bestFit (eaStart cfg pop0 hof0 rng).hof := by
  have hsel := selectionPhase_no_trigger
    (first_step_no_trigger cfg pop0 hof0 rng)
  obtain ⟨i, hi, hv⟩ := bestFit_mem hne
  have hmem : i ∈ newPop cfg (selectionPhase cfg (eaStart cfg pop0 hof0 rng)) := by
    rw [hsel]
    exact List.mem_append_right _ hi
  calc popMin _ ≤ fitVal i := popMin_le_of_mem hmem
    _ = _ := hv

/-- If generation 0 already has minimum fitness 0, the run freezes right
after generation 1: every later state equals the generation-1 state, whose
logbook holds exactly the two rows for generations 0 and 1, and whose best
archived fitness is 0. -/
theorem gen0_zero_stops {cfg : EngineCfg σ} {pop0 : List Ind} {K : Nat}
    {rng : σ} (htb : TBOK cfg.tb cfg.similar) (hne : pop0 ≠ [])
    (hfresh : ∀ i ∈ pop0, i.fitness = none) (hK : 1 ≤ K)
    (h0 : popMin (evalInvalid cfg.tb.evaluate pop0).1 = 0) :
    ∀ n, 1 ≤ n →
      eaRun cfg pop0 ⟨K, []⟩ rng n = eaRun cfg pop0 ⟨K, []⟩ rng 1 ∧
      (eaRun cfg pop0 ⟨K, []⟩ rng n).logbook.length = 2 ∧
      bestFit (eaRun cfg pop0 ⟨K, []⟩ rng n).hof = 0 := by
  have hstart := @inv_start σ cfg pop0 K rng htb hne hfresh hK
  have hzero1 : ∃ r ∈ (eaRun cfg pop0 ⟨K, []⟩ rng 1).logbook, r.minFit = 0 := by
    rw [eaRun_succ]
    show ∃ r ∈ (genStep cfg (eaStart cfg pop0 ⟨K, []⟩ rng)).logbook, _
    rw [genStep_logbook_not_done (eaStart_doneFlag cfg pop0 ⟨K, []⟩ rng)]
    refine ⟨⟨0, (evalInvalid cfg.tb.evaluate pop0).2,
        popMin (evalInvalid cfg.tb.evaluate pop0).1,
        popAvg (evalInvalid cfg.tb.evaluate pop0).1, none, none⟩,
      List.mem_append_left _ ?_, ?_⟩
    · rw [eaStart_logbook]
      exact List.mem_singleton.mpr rfl
    · exact h0
  have hdone1 : (eaRun cfg pop0 ⟨K, []⟩ rng 1).done = true :=
    eaRun_zero_done 1 (Nat.le_refl 1) hzero1
  have hrec1 : popMin (newPop cfg
      (selectionPhase cfg (eaStart cfg pop0 ⟨K, []⟩ rng))) = 0 := by
    have hb := first_rec_le_best cfg pop0 ⟨K, []⟩ rng hstart.hofNe
    obtain ⟨r, hr, hm, hbr⟩ := hstart.lastRec
    have hr0 : r.minFit = 0 := by
      rw [hm, eaStart_population]
      exact h0
    omega
  intro n hn
  have hfr := eaRun_frozen hdone1 n hn
  refine ⟨hfr, ?_, ?_⟩
  · rw [hfr, eaRun_succ]
    show (genStep cfg (eaStart cfg pop0 ⟨K, []⟩ rng)).logbook.length = 2
    rw [genStep_logbook_not_done (eaStart_doneFlag cfg pop0 ⟨K, []⟩ rng)]
    rw [List.length_append, eaStart_logbook]
    rfl
  · rw [hfr]
    have hinv1 := @inv_run σ cfg pop0 K rng htb hne hfresh hK 1
    obtain ⟨r, hr, hm, hbr⟩ := hinv1.lastRec
    have hlog1 : (eaRun cfg pop0 ⟨K, []⟩ rng 1).logbook =
        (eaStart cfg pop0 ⟨K, []⟩ rng).logbook ++
          [newRec cfg ((eaStart cfg pop0 ⟨K, []⟩ rng).gen + 1)
            (selectionPhase cfg (eaStart cfg pop0 ⟨K, []⟩ rng))] := by
      rw [eaRun_succ]
      exact genStep_logbook_not_done (eaStart_doneFlag cfg pop0 ⟨K, []⟩ rng)
    rw [hlog1, List.getLast?_concat] at hr
    have hr2 : r = newRec cfg ((eaStart cfg pop0 ⟨K, []⟩ rng).gen + 1)
        (selectionPhase cfg (eaStart cfg pop0 ⟨K, []⟩ rng)) := by
      exact (Option.some.injEq _ _ ▸ hr.symm :)
    have : r.minFit = 0 := by
      rw [hr2, newRec_minFit]
      exact hrec1
    omega

/-- If the row appended at generation `g+1` records minimum 0, the best
archived fitness at generation `g+1` is 0. -/
theorem bestFit_of_last_zero {cfg : EngineCfg σ} {pop0 : List Ind} {K : Nat}
    {rng : σ} (htb : TBOK cfg.tb cfg.similar) (hne : pop0 ≠ [])
    (hfresh : ∀ i ∈ pop0, i.fitness = none) (hK : 1 ≤ K) (g : Nat)
    (hd : (eaRun cfg pop0 ⟨K, []⟩ rng g).done = false)
    (hz : (newRec cfg ((eaRun cfg pop0 ⟨K, []⟩ rng g).gen + 1)
      (selectionPhase cfg (eaRun cfg pop0 ⟨K, []⟩ rng g))).minFit = 0) :
    bestFit (eaRun cfg pop0 ⟨K, []⟩ rng (g + 1)).hof = 0 := by
  have hinv := @inv_run σ cfg pop0 K rng htb hne hfresh hK (g + 1)
  obtain ⟨r, hr, hm, hbr⟩ := hinv.lastRec
  have hlog : (eaRun cfg pop0 ⟨K, []⟩ rng (g + 1)).logbook =
      (eaRun cfg pop0 ⟨K, []⟩ rng g).logbook ++
        [newRec cfg ((eaRun cfg pop0 ⟨K, []⟩ rng g).gen + 1)
          (selectionPhase cfg (eaRun cfg pop0 ⟨K, []⟩ rng g))] := by
    rw [eaRun_succ]
    exact genStep_logbook_not_done hd
  rw [hlog, List.getLast?_concat] at hr
  have hreq : r = newRec cfg ((eaRun cfg pop0 ⟨K, []⟩ rng g).gen + 1)
      (selectionPhase cfg (eaRun cfg pop0 ⟨K, []⟩ rng g)) := by
    exact (Option.some.injEq _ _ ▸ hr.symm :)
  rw [hreq] at hbr
  omega

/-- Whenever some recorded row has minimum fitness 0 at a generation
`g ≥ 1`, the best archived fitness at generation `g` is 0. -/
theorem zero_bestFit {cfg : EngineCfg σ} {pop0 : List Ind} {K : Nat}
    {rng : σ} (htb : TBOK cfg.tb cfg.similar) (hne : pop0 ≠ [])
    (hfresh : ∀ i ∈ pop0, i.fitness = none) (hK : 1 ≤ K) :
    ∀ g, 1 ≤ g →
      (∃ r ∈ (eaRun cfg pop0 ⟨K, []⟩ rng g).logbook, r.minFit = 0) →
      bestFit (eaRun cfg pop0 ⟨K, []⟩ rng g).hof = 0 := by
  intro g
  induction g with
  | zero => intro h; omega
  | succ n ih =>
    intro _ hz
    by_cases hd : (eaRun cfg pop0 ⟨K, []⟩ rng n).done = true
    · have hfr : eaRun cfg pop0 ⟨K, []⟩ rng (n + 1) =
          eaRun cfg pop0 ⟨K, []⟩ rng n := by
        rw [eaRun_succ]
        exact genStep_done hd
      cases n with
      | zero =>
        have hd0 : (eaRun cfg pop0 ⟨K, []⟩ rng 0).done = false := rfl
        rw [hd0] at hd
        cases hd
      | succ m =>
        rw [hfr] at hz ⊢
        exact ih (by omega) hz
    · have hd2 : (eaRun cfg pop0 ⟨K, []⟩ rng n).done = false := by
        simpa using hd
      have hlog : (eaRun cfg pop0 ⟨K, []⟩ rng (n + 1)).logbook =
          (eaRun cfg pop0 ⟨K, []⟩ rng n).logbook ++
            [newRec cfg ((eaRun cfg pop0 ⟨K, []⟩ rng n).gen + 1)
              (selectionPhase cfg (eaRun cfg pop0 ⟨K, []⟩ rng n))] := by
        rw [eaRun_succ]
        exact genStep_logbook_not_done hd2
      obtain ⟨r, hr, hr0⟩ := hz
      rw [hlog] at hr
      rcases List.mem_append.mp hr with hr | hr
      · cases n with
        | zero =>
          have hr1 : r = ⟨0, (evalInvalid cfg.tb.evaluate pop0).2,
              popMin (evalInvalid cfg.tb.evaluate pop0).1,
              popAvg (evalInvalid cfg.tb.evaluate pop0).1, none, none⟩ := by
            have := hr
            rw [show (eaRun cfg pop0 ⟨K, []⟩ rng 0).logbook =
                (eaStart cfg pop0 ⟨K, []⟩ rng).logbook from rfl,
              eaStart_logbook] at this
            exact List.mem_singleton.mp this
          have h0 : popMin (evalInvalid cfg.tb.evaluate pop0).1 = 0 := by
            rw [hr1] at hr0
            exact hr0
          exact (gen0_zero_stops htb hne hfresh hK h0 1 (Nat.le_refl 1)).2.2
        | succ m =>
          have := @eaRun_zero_done σ cfg pop0 K rng (m + 1) (by omega)
            ⟨r, hr, hr0⟩
          rw [this] at hd2
          cases hd2
      · have hreq : r = newRec cfg ((eaRun cfg pop0 ⟨K, []⟩ rng n).gen + 1)
            (selectionPhase cfg (eaRun cfg pop0 ⟨K, []⟩ rng n)) :=
          List.mem_singleton.mp hr
        refine bestFit_of_last_zero htb hne hfresh hK n hd2 ?_
        rw [← hreq]
        exact hr0

/-! ### Claim theorems -/

/-- Claim C1, counterexample: population size is not invariant.  With the
configuration `stuck = (0, "Radiation Leak")`, a two-individual population
and a hall of fame of capacity 1, the population length is 2 at generation
0 but 3 after the Radiation-Leak generation (generation 3): the stale
offspring pool is reused and then extended with the archived item, growing
the population. -/
theorem popsize_counterexample :
    (eaRun cfgLeak [indA, indB] ⟨1, []⟩ () 0).population.length = 2 ∧
    (eaRun cfgLeak [indA, indB] ⟨1, []⟩ () 3).population.length ≠ 2 := by
  constructor
  · rfl
  · decide

/-- Claim C1, amended: the population length equals the configured
population size (the length of the initial population) at the end of every
generation, provided every generation so far was either already stopped,
a normal selection generation performed while the hall of fame held exactly
`hof_size` items (with `hof_size` at most the population length), or a
Comet Strike fired with at least 3 archived items and at least 3
individuals; a stagnation generation with any other kind (Radiation Leak or
an unrecognized kind) instead grows the population. -/
theorem popsize_amended {cfg : EngineCfg σ} {pop0 : List Ind}
    {hof0 : HallOfFame} {rng : σ} (htb : TBOK cfg.tb cfg.similar) :
    ∀ g, (∀ k, k < g → (eaRun cfg pop0 hof0 rng k).done = true ∨
        goodGen cfg (eaRun cfg pop0 hof0 rng k)) →
      (eaRun cfg pop0 hof0 rng g).population.length = pop0.length := by
  intro g
  induction g with
  | zero =>
    intro _
    show (eaStart cfg pop0 hof0 rng).population.length = pop0.length
    rw [eaStart_population, evalInvalid_length]
  | succ n ih =>
    intro hall
    rw [eaRun_succ, stepLen_good htb (hall n (by omega))]
    exact ih fun k hk => hall k (by omega)

/-- Witness for the amended claim C1 at a concrete two-generation run. -/
theorem popsize_amended_witness :
    (eaRun cfgLeak [indA, indB] ⟨1, []⟩ () 2).population.length =
      ([indA, indB] : List Ind).length :=
  popsize_amended tbConst_ok 2 (by decide)

/-- Claim C2 (code bug): when the stagnation trigger fires with the kind
`"chernobyl"` hardcoded by `GASolver.ga_solve`, neither recognized shock
event is dispatched: the selection phase leaves the hall of fame, the
mutation rate and the radiation counter untouched, reuses the stale
offspring list as the pool, and the appended logbook row carries an empty
shock label. -/
theorem chernobyl_dispatches_nothing {cfg : EngineCfg σ} {s : EngineState σ}
    (hd : s.done = false) (ht : triggerFires cfg s = true)
    (hk : cfg.stuckKind = "chernobyl") :
    selectionPhase cfg s =
      { pool := s.offspring, hof := s.hof, mutpb := mutAfterDecay cfg s,
        radiation := radAfterDecay s, shock := "", rng := s.rng } ∧
    ∃ r, (genStep cfg s).logbook.getLast? = some r ∧
      r.shockEvent = some "" := by
  have hkc : cfg.stuckKind ≠ "Comet Strike" := by rw [hk]; decide
  have hkr : cfg.stuckKind ≠ "Radiation Leak" := by rw [hk]; decide
  have hsel := selectionPhase_other ht hkc hkr
  refine ⟨hsel, newRec cfg (s.gen + 1) (selectionPhase cfg s), ?_, ?_⟩
  · rw [genStep_logbook_not_done hd]
    exact List.getLast?_concat _
  · rw [newRec_shockEvent, hsel]

/-- Witness for claim C2 at the concrete `"chernobyl"` run, at the
generation where the trigger fires. -/
theorem chernobyl_dispatches_nothing_witness :
    selectionPhase cfgCher (eaRun cfgCher [indA, indB] ⟨1, []⟩ () 2) =
      { pool := (eaRun cfgCher [indA, indB] ⟨1, []⟩ () 2).offspring,
        hof := (eaRun cfgCher [indA, indB] ⟨1, []⟩ () 2).hof,
        mutpb := mutAfterDecay cfgCher (eaRun cfgCher [indA, indB] ⟨1, []⟩ () 2),
        radiation := radAfterDecay (eaRun cfgCher [indA, indB] ⟨1, []⟩ () 2),
        shock := "",
        rng := (eaRun cfgCher [indA, indB] ⟨1, []⟩ () 2).rng } ∧
    ∃ r, (genStep cfgCher
        (eaRun cfgCher [indA, indB] ⟨1, []⟩ () 2)).logbook.getLast? = some r ∧
      r.shockEvent = some "" :=
  chernobyl_dispatches_nothing (by decide) (by decide) rfl

/-- Claim C4, counterexample: with a missing hall of fame the engine does
raise, but only after evaluating both invalid individuals of the initial
population (the error payload records 2 evaluations, not 0); and with an
empty-but-present hall of fame it does not raise at all. -/
theorem hof_missing_counterexample :
    eaSimpleWithElitism cfgLeak [indA, indB] none () =
      Except.error (2, "halloffame parameter must not be empty!") ∧
    eaSimpleWithElitism cfgLeak [indA, indB] (some ⟨1, []⟩) () =
      Except.ok (eaRun cfgLeak [indA, indB] ⟨1, []⟩ () 3) :=
  ⟨rfl, rfl⟩

/-- Claim C4, amended: only a missing (`None`) hall-of-fame argument makes
the engine raise `ValueError`, and the raise happens after the initial
evaluation pass (with a fully fresh population, all of it is evaluated
first) but before any hall-of-fame update and before any generation of the
loop; an empty-but-present hall of fame does not raise and the run
proceeds. -/
theorem hof_missing_amended {cfg : EngineCfg σ} (pop0 : List Ind) (rng : σ)
    (hfresh : ∀ i ∈ pop0, i.fitness = none) :
    eaSimpleWithElitism cfg pop0 none rng =
      Except.error (pop0.length,
        "halloffame parameter must not be empty!") ∧
    ∀ hof0, eaSimpleWithElitism cfg pop0 (some hof0) rng =
      Except.ok (eaRun cfg pop0 hof0 rng cfg.ngen) := by
  refine ⟨?_, fun _ => rfl⟩
  have hcount : pop0.filter (fun i => i.fitness.isNone) = pop0 :=
    List.filter_eq_self.mpr fun a ha => by rw [hfresh a ha]; rfl
  show Except.error ((evalInvalid cfg.tb.evaluate pop0).2, _) = _
  simp only [evalInvalid, hcount]

/-- Witness for the amended claim C4 at a concrete input. -/
theorem hof_missing_amended_witness :
    eaSimpleWithElitism cfgLeak [indA, indB] none () =
      Except.error (([indA, indB] : List Ind).length,
        "halloffame parameter must not be empty!") ∧
    ∀ hof0, eaSimpleWithElitism cfgLeak [indA, indB] (some hof0) () =
      Except.ok (eaRun cfgLeak [indA, indB] hof0 () cfgLeak.ngen) :=
  hof_missing_amended [indA, indB] () (by decide)

/-- Claim C5: along the statistics log of any run, the recorded minimum
fitness never increases from one row to the next, except on a row labelled
with the Comet Strike shock event (the record made immediately after a
reset), where a regression is permitted. -/
theorem elitism_monotone {cfg : EngineCfg σ} {pop0 : List Ind} {K : Nat}
    {rng : σ} (htb : TBOK cfg.tb cfg.similar) (hne : pop0 ≠ [])
    (hfresh : ∀ i ∈ pop0, i.fitness = none) (hK : 1 ≤ K) (g : Nat) :
    List.Chain' MonoExceptComet (eaRun cfg pop0 ⟨K, []⟩ rng g).logbook :=
  (inv_run htb hne hfresh hK g).chain

/-- Witness for claim C5 on a concrete run that includes a Comet Strike. -/
theorem elitism_monotone_witness :
    List.Chain' MonoExceptComet
      (eaRun cfgComet [indA, indB, indB, indA, indB] ⟨3, []⟩ () 3).logbook :=
  elitism_monotone tbConst_ok (by decide) (by decide) (by decide) 3

/-- Claim C7: at every generation boundary the hall of fame holds at most
`hall_of_fame_size` items, and it is never empty (a Comet Strike clears it
only transiently within the generation; the same generation's update
repopulates it). -/
theorem hof_bound {cfg : EngineCfg σ} {pop0 : List Ind} {K : Nat} {rng : σ}
    (htb : TBOK cfg.tb cfg.similar) (hne : pop0 ≠ [])
    (hfresh : ∀ i ∈ pop0, i.fitness = none) (hK : 1 ≤ K) (g : Nat) :
    (eaRun cfg pop0 ⟨K, []⟩ rng g).hof.items.length ≤ K ∧
    (eaRun cfg pop0 ⟨K, []⟩ rng g).hof.items ≠ [] := by
  have hinv := @inv_run σ cfg pop0 K rng htb hne hfresh hK g
  have hmax : (eaRun cfg pop0 ⟨K, []⟩ rng g).hof.maxsize = K :=
    eaRun_maxsize cfg pop0 ⟨K, []⟩ rng g
  exact ⟨le_of_le_of_eq hinv.hofLen hmax, hinv.hofNe⟩

/-- Witness for claim C7 on the concrete Comet-Strike run. -/
theorem hof_bound_witness :
    (eaRun cfgComet [indA, indB, indB, indA, indB] ⟨3, []⟩ () 3).hof.items.length
      ≤ 3 ∧
    (eaRun cfgComet [indA, indB, indB, indA, indB] ⟨3, []⟩ () 3).hof.items
      ≠ [] :=
  hof_bound tbConst_ok (by decide) (by decide) (by decide) 3

/-- Claim C6: at the end of every executed generation, `last_min` is set
to the minimum over the `'min'` column of the entire statistics log (a
value bounding every recorded row, including all earlier generations, and
attained by one of them), and `stuck_count` is incremented from its
pre-comparison value when the new minimum equals the previously set
`last_min`, reset to 0 when it differs, and — on the very first
comparison, where `last_min` is still the unset sentinel — left at its
pre-comparison value, which at the first generation of any run is 0. -/
theorem stagnation_update (cfg : EngineCfg σ) (s : EngineState σ)
    (hd : s.done = false) :
    (∀ r ∈ (genStep cfg s).logbook,
      (genStep cfg s).lastMin.getD 0 ≤ r.minFit) ∧
    (∃ r ∈ (genStep cfg s).logbook,
      (genStep cfg s).lastMin = some r.minFit) ∧
    ((genStep cfg s).stuckCount =
      match s.lastMin with
      | none => stuckAfterBranch cfg s
      | some m =>
        if m = 0 then stuckAfterBranch cfg s
        else if (genStep cfg s).lastMin = some m then
          stuckAfterBranch cfg s + 1
        else 0) ∧
    (∀ (pop1 : List Ind) (hof1 : HallOfFame) (rng1 : σ),
      (genStep cfg (eaStart cfg pop1 hof1 rng1)).stuckCount = 0) := by
  rw [genStep_not_done hd]
  refine ⟨?_, ?_, ?_, ?_⟩
  · intro r hr
    rw [genTail_logbook] at hr
    rw [genTail_lastMin]
    exact natMin_le_of_mem (List.mem_map_of_mem _ hr)
  · have hne : ((s.logbook ++ [newRec cfg (s.gen + 1)
        (selectionPhase cfg s)]).map fun r => r.minFit) ≠ [] := by simp
    rcases List.mem_map.mp (natMin_mem hne) with ⟨r, hr, he⟩
    refine ⟨r, ?_, ?_⟩
    · rw [genTail_logbook]
      exact hr
    · rw [genTail_lastMin, he]
  · rw [genTail_stuckCount, genTail_lastMin]
    cases s.lastMin with
    | none => rfl
    | some m =>
      by_cases hm : m = 0
      · simp [hm]
      · simp [hm, Option.some.injEq]
  · intro pop1 hof1 rng1
    rw [genStep_not_done (eaStart_doneFlag cfg pop1 hof1 rng1),
      genTail_stuckCount, eaStart_lastMin]
    exact stuckAfterBranch_start cfg pop1 hof1 rng1

/-- Witness for claim C6 at the first generation of a concrete run: the
updated `last_min` is attained by a recorded row. -/
theorem stagnation_update_witness :
    ∃ r ∈ (genStep cfgLeak (eaRun cfgLeak [indA, indB] ⟨1, []⟩ () 1)).logbook,
      (genStep cfgLeak (eaRun cfgLeak [indA, indB] ⟨1, []⟩ () 1)).lastMin =
        some r.minFit :=
  (stagnation_update cfgLeak (eaRun cfgLeak [indA, indB] ⟨1, []⟩ () 1)
    (by decide)).2.1

/-- Claim C9: in a generation where the stagnation trigger fires with any
kind other than `"Comet Strike"` (including `"Radiation Leak"` and the
caller's hardcoded `"chernobyl"`), no pool is produced by the selection
operator: the stale offspring list — whose contents equal the current
population — is reused as the pool, varied again, re-evaluated, and then
extended with the hall-of-fame items, so the population length grows by
the number of archived items. -/
theorem stale_pool_reuse {cfg : EngineCfg σ} {s : EngineState σ}
    (htb : TBOK cfg.tb cfg.similar) (hd : s.done = false)
    (ht : triggerFires cfg s = true)
    (hk : cfg.stuckKind ≠ "Comet Strike")
    (hoff : s.offspring = s.population) :
    (selectionPhase cfg s).pool = s.population ∧
    (genStep cfg s).population =
      (evalInvalid cfg.tb.evaluate
        (variedPool cfg (selectionPhase cfg s)).1).1 ++ s.hof.items ∧
    (genStep cfg s).population.length =
      s.population.length + s.hof.items.length := by
  have hpool : (selectionPhase cfg s).pool = s.offspring := by
    by_cases hk2 : cfg.stuckKind = "Radiation Leak"
    · rw [selectionPhase_leak ht hk2]
    · rw [selectionPhase_other ht hk hk2]
  have hhof : (selectionPhase cfg s).hof = s.hof := by
    by_cases hk2 : cfg.stuckKind = "Radiation Leak"
    · rw [selectionPhase_leak ht hk2]
    · rw [selectionPhase_other ht hk hk2]
  refine ⟨hpool.trans hoff, ?_, ?_⟩
  · rw [genStep_not_done hd, genTail_population, newPop, hhof]
  · rw [stepLen_nonCS_trigger htb hd ht hk, hoff]

/-- Witness for claim C9 at the concrete `"chernobyl"` run: the population
grows from 2 to 3. -/
theorem stale_pool_reuse_witness :
    (genStep cfgCher
      (eaRun cfgCher [indA, indB] ⟨1, []⟩ () 2)).population.length =
      (eaRun cfgCher [indA, indB] ⟨1, []⟩ () 2).population.length +
      (eaRun cfgCher [indA, indB] ⟨1, []⟩ () 2).hof.items.length :=
  (stale_pool_reuse tbConst_ok (by decide) (by decide) (by decide)
    (by decide)).2.2

/-- Claim C10: a Comet Strike rebuilds the pool as
`populationCreator(len(population) - 3)` plus the first `min(3, len(hof))`
archived members — using the literal constant 3, not `hall_of_fame_size` —
and clears the archive before the elitist extension, so the generation
ends with `(len - 3) + min 3 (len hof)` individuals: strictly fewer when
the archive held fewer than 3 items (and the population more than 3), a
loss that subsequent normal selection generations preserve as long as
the archive length matches `hof_size`. -/
theorem comet_literal_three {cfg : EngineCfg σ} {s : EngineState σ}
    (htb : TBOK cfg.tb cfg.similar) (hd : s.done = false)
    (ht : triggerFires cfg s = true)
    (hk : cfg.stuckKind = "Comet Strike") :
    (selectionPhase cfg s).pool =
      (cfg.tb.populationCreator (s.population.length - 3) s.rng).1 ++
        s.hof.items.take 3 ∧
    (selectionPhase cfg s).hof.items = [] ∧
    (genStep cfg s).population.length =
      (s.population.length - 3) + min 3 s.hof.items.length ∧
    (s.hof.items.length < 3 → 3 < s.population.length →
      (genStep cfg s).population.length < s.population.length) ∧
    (∀ s2 : EngineState σ, s2.done = false → triggerFires cfg s2 = false →
      s2.hof.items.length = s2.hofSize →
      s2.hofSize ≤ s2.population.length →
      (genStep cfg s2).population.length = s2.population.length) := by
  have hsel := selectionPhase_comet ht hk
  have hlen := stepLen_comet htb hd ht hk
  refine ⟨by rw [hsel], by rw [hsel], hlen, ?_, ?_⟩
  · intro h3 hp3
    rw [hlen]
    omega
  · intro s2 hd2 ht2 hhl hle
    rw [stepLen_no_trigger htb hd2 ht2, hhl]
    omega

/-- Witness for claim C10 on a run whose archive holds 2 items at the
strike: the population shrinks from 5 to 4. -/
theorem comet_literal_three_witness :
    (genStep cfgComet
      (eaRun cfgComet [indA, indB, indB, indA, indB] ⟨3, []⟩ () 2)).population.length <
      (eaRun cfgComet
        [indA, indB, indB, indA, indB] ⟨3, []⟩ () 2).population.length :=
  (comet_literal_three tbConst_ok (by decide) (by decide) rfl).2.2.2.1
    (by decide) (by decide)

/-- Unfolding of `gaSolve` once the final archive is known nonempty. -/
theorem gaSolve_eq {Sol : Type} (tb : Toolbox σ) (similar : Ind → Ind → Bool)
    (decode : Ind → Sol) (hasCb : Bool) (popSize ngen hofK : Nat)
    (cx mu : ℚ) (rng : σ) (best : Ind) (rest : List Ind)
    (hitems : (eaRun ⟨tb, similar, cx, mu, ngen, 50, "chernobyl"⟩
      (tb.populationCreator popSize rng).1 ⟨hofK, []⟩
      (tb.populationCreator popSize rng).2 ngen).hof.items = best :: rest) :
    gaSolve tb similar decode hasCb popSize ngen hofK cx mu rng =
      some { solved := decide (fitVal best = 0), solution := decode best,
             finalCalls :=
               if hasCb then
                 [(decide (fitVal best = 0),
                   if decide (fitVal best = 0) then some (decode best)
                   else none)]
               else [],
             population := (eaRun ⟨tb, similar, cx, mu, ngen, 50, "chernobyl"⟩
               (tb.populationCreator popSize rng).1 ⟨hofK, []⟩
               (tb.populationCreator popSize rng).2 ngen).population,
             logbook := (eaRun ⟨tb, similar, cx, mu, ngen, 50, "chernobyl"⟩
               (tb.populationCreator popSize rng).1 ⟨hofK, []⟩
               (tb.populationCreator popSize rng).2 ngen).logbook,
             hof := (eaRun ⟨tb, similar, cx, mu, ngen, 50, "chernobyl"⟩
               (tb.populationCreator popSize rng).1 ⟨hofK, []⟩
               (tb.populationCreator popSize rng).2 ngen).hof } := by
  unfold gaSolve
  simp only [eaSimpleWithElitism]
  rw [hitems]

/-- Claim C8: after the run terminates, `solved` is true exactly when the
best (first) hall-of-fame member's fitness is 0; `ga_solve` decodes that
member as the solution, and the final callback — when attached — is
invoked exactly once, receiving the decoded best solution exactly when
`solved` is true. -/
theorem solved_iff {Sol : Type} (tb : Toolbox σ) (similar : Ind → Ind → Bool)
    (decode : Ind → Sol) (hasCb : Bool) (popSize ngen hofK : Nat)
    (cx mu : ℚ) (rng : σ) (htb : TBOK tb similar) (hpop : 1 ≤ popSize)
    (hK : 1 ≤ hofK) :
    ∃ o best rest,
      gaSolve tb similar decode hasCb popSize ngen hofK cx mu rng = some o ∧
      o.hof.items = best :: rest ∧
      (o.solved = true ↔ fitVal best = 0) ∧
      o.solution = decode best ∧
      o.finalCalls =
        (if hasCb then
          [(o.solved, if o.solved = true then some (decode best) else none)]
        else []) := by
  have hne : (tb.populationCreator popSize rng).1 ≠ [] := by
    intro h0
    have hl := htb.creator_len popSize rng
    rw [h0] at hl
    simp only [List.length_nil] at hl
    omega
  have hfresh := htb.creator_new popSize rng
  have hinv := @inv_run σ ⟨tb, similar, cx, mu, ngen, 50, "chernobyl"⟩
    (tb.populationCreator popSize rng).1 hofK
    (tb.populationCreator popSize rng).2 htb hne hfresh hK ngen
  obtain ⟨best, rest, hitems⟩ : ∃ best rest,
      (eaRun ⟨tb, similar, cx, mu, ngen, 50, "chernobyl"⟩
        (tb.populationCreator popSize rng).1 ⟨hofK, []⟩
        (tb.populationCreator popSize rng).2 ngen).hof.items =
        best :: rest := by
    cases hh : (eaRun ⟨tb, similar, cx, mu, ngen, 50, "chernobyl"⟩
        (tb.populationCreator popSize rng).1 ⟨hofK, []⟩
        (tb.populationCreator popSize rng).2 ngen).hof.items with
    | nil => exact absurd hh hinv.hofNe
    | cons a t => exact ⟨a, t, rfl⟩
  refine ⟨_, best, rest,
    gaSolve_eq tb similar decode hasCb popSize ngen hofK cx mu rng best rest
      hitems, hitems, ?_, rfl, rfl⟩
  exact decide_eq_true_iff

/-- Witness for claim C8 on the concrete first-gene-5 scenario. -/
theorem solved_iff_witness :
    ∃ o best rest,
      gaSolve tbGene5 simGenes (fun i => i.genes) true 2 3 1 0 0 () =
        some o ∧
      o.hof.items = best :: rest ∧
      (o.solved = true ↔ fitVal best = 0) ∧
      o.solution = best.genes ∧
      o.finalCalls =
        (if true then
          [(o.solved, if o.solved = true then some best.genes else none)]
        else []) :=
  solved_iff tbGene5 simGenes (fun i => i.genes) true 2 3 1 0 0 ()
    tbGene5_ok (by decide) (by decide)

/-- Claim C3, counterexample: in the spec's concrete generation-0 scenario
(fitness 0 for a first-gene-5 individual present in the initial
population), the run does not terminate at generation 0: the statistics
log of the returned outcome contains a generation-1 row (the loop executed
one full generation before the early-stop test ran), although `solved` is
true. -/
theorem earlystop_counterexample :
    (gaSolve tbGene5 simGenes (fun i => i.genes) true 2 3 1 0 0 ()).map
      (fun o => (o.logbook.map fun r => (r.gen, r.minFit), o.solved)) =
      some ([(0, 0), (1, 0)], true) := by
  decide

/-- Claim C3, amended: if any recorded generation `g ≥ 1` has minimum
fitness 0, the run stops at generation `g` (the state is frozen from there
on) with best archived fitness 0; if generation 0 already has minimum
fitness 0, the run executes exactly one more generation and stops after
generation 1 — not at generation 0 — with two logbook rows, best archived
fitness 0, and (for `ga_solve`, with `max_generations ≥ 1`) with
`solved = true`. -/
theorem earlystop_amended {cfg : EngineCfg σ} {pop0 : List Ind} {K : Nat}
    {rng : σ} (htb : TBOK cfg.tb cfg.similar) (hne : pop0 ≠ [])
    (hfresh : ∀ i ∈ pop0, i.fitness = none) (hK : 1 ≤ K) :
    (∀ g, 1 ≤ g →
      (∃ r ∈ (eaRun cfg pop0 ⟨K, []⟩ rng g).logbook, r.minFit = 0) →
      (eaRun cfg pop0 ⟨K, []⟩ rng g).done = true ∧
      bestFit (eaRun cfg pop0 ⟨K, []⟩ rng g).hof = 0 ∧
      ∀ n, g ≤ n →
        eaRun cfg pop0 ⟨K, []⟩ rng n = eaRun cfg pop0 ⟨K, []⟩ rng g) ∧
    (popMin (evalInvalid cfg.tb.evaluate pop0).1 = 0 →
      ∀ n, 1 ≤ n →
        eaRun cfg pop0 ⟨K, []⟩ rng n = eaRun cfg pop0 ⟨K, []⟩ rng 1 ∧
        (eaRun cfg pop0 ⟨K, []⟩ rng n).logbook.length = 2 ∧
        bestFit (eaRun cfg pop0 ⟨K, []⟩ rng n).hof = 0) ∧
    (∀ (Sol : Type) (decode : Ind → Sol) (hasCb : Bool)
        (popSize ngen2 hofK : Nat) (cx mu : ℚ) (rng2 : σ),
      1 ≤ popSize → 1 ≤ hofK → 1 ≤ ngen2 →
      popMin (evalInvalid cfg.tb.evaluate
        (cfg.tb.populationCreator popSize rng2).1).1 = 0 →
      ∃ o, gaSolve cfg.tb cfg.similar decode hasCb popSize ngen2 hofK cx mu
          rng2 = some o ∧
        o.solved = true ∧ o.logbook.length = 2) := by
  refine ⟨?_, gen0_zero_stops htb hne hfresh hK, ?_⟩
  · intro g hg hz
    have hdone := eaRun_zero_done g hg hz
    exact ⟨hdone, zero_bestFit htb hne hfresh hK g hg hz,
      eaRun_frozen hdone⟩
  · intro Sol decode hasCb popSize ngen2 hofK cx mu rng2 hpop hK2 hg2 h0
    have hne2 : (cfg.tb.populationCreator popSize rng2).1 ≠ [] := by
      intro hemp
      have hl := htb.creator_len popSize rng2
      rw [hemp] at hl
      simp only [List.length_nil] at hl
      omega
    have hfresh2 := htb.creator_new popSize rng2
    have hstop := @gen0_zero_stops σ
      ⟨cfg.tb, cfg.similar, cx, mu, ngen2, 50, "chernobyl"⟩
      (cfg.tb.populationCreator popSize rng2).1 hofK
      (cfg.tb.populationCreator popSize rng2).2
      htb hne2 hfresh2 hK2 h0 ngen2 hg2
    have hinv := @inv_run σ
      ⟨cfg.tb, cfg.similar, cx, mu, ngen2, 50, "chernobyl"⟩
      (cfg.tb.populationCreator popSize rng2).1 hofK
      (cfg.tb.populationCreator popSize rng2).2
      htb hne2 hfresh2 hK2 ngen2
    obtain ⟨best, rest, hitems⟩ : ∃ best rest,
        (eaRun ⟨cfg.tb, cfg.similar, cx, mu, ngen2, 50, "chernobyl"⟩
          (cfg.tb.populationCreator popSize rng2).1 ⟨hofK, []⟩
          (cfg.tb.populationCreator popSize rng2).2 ngen2).hof.items =
          best :: rest := by
      cases hh : (eaRun ⟨cfg.tb, cfg.similar, cx, mu, ngen2, 50, "chernobyl"⟩
          (cfg.tb.populationCreator popSize rng2).1 ⟨hofK, []⟩
          (cfg.tb.populationCreator popSize rng2).2 ngen2).hof.items with
      | nil => exact absurd hh hinv.hofNe
      | cons a t => exact ⟨a, t, rfl⟩
    have hbest0 : fitVal best = 0 := by
      have hb := hstop.2.2
      rw [bestFit, hitems] at hb
      exact hb
    refine ⟨_, gaSolve_eq cfg.tb cfg.similar decode hasCb popSize ngen2 hofK
      cx mu rng2 best rest hitems, ?_, ?_⟩
    · simp [hbest0]
    · exact hstop.2.1

/-- Witness for the amended claim C3 on a concrete generation-0-optimum
run. -/
theorem earlystop_amended_witness :
    bestFit (eaRun ⟨tbGene5, simGenes, 0, 0, 3, 50, "chernobyl"⟩
      [⟨[5], none⟩, indA] ⟨1, []⟩ () 3).hof = 0 :=
  ((earlystop_amended tbGene5_ok (by decide) (by decide) (by decide)).2.1
    (by decide) 3 (by decide)).2.2

end BioAlgs
